import Mathlib

/-
Verification development for the sicpy repository: a discrete-event circuit
simulator built on mutable Lisp-style pairs.

Shallow embedding conventions:
* Python objects that the repository manipulates are values of type SVal:
  None (the empty-list sentinel), ints, strings, zero-argument procedures
  (the closures the repository itself constructs, enumerated by Action),
  and Cons cells.  Cons cells are mutable, so they live in an explicit
  heap (a list of car/cdr slot pairs, addressed by position); cons
  allocates a fresh cell at the end of the heap and set_car / set_cdr
  update a slot in place.  The View type of scheme.py is registered for
  the pair protocol but is used nowhere in the repository and by no claim,
  so it is not part of the value universe.
* Python exceptions are modeled by Except SErr: TypeError raised by the
  singledispatch defaults becomes SErr.typeError, IndexError becomes
  SErr.indexError, and SchemeError (raised through the function error,
  with message and irritant values) becomes SErr.schemeError.  Mutating
  functions return the updated heap; exceptions propagate and the heap
  mutations already performed persist, as in Python.
* Unbounded loops and recursions of the source (chain walks, the inner
  recursion of add_to_agenda, the propagate loop, executing scheduled
  procedures) take an explicit fuel argument; running out of fuel yields
  the artificial SErr.fuelError, which no Python execution exhibits.
  Theorems either use concrete fuel on concrete runs or prove that the
  supplied fuel suffices.
* Signal values and times are Nat: the repository only ever constructs
  non-negative ints for both, and the bitwise operators agree with
  Python on non-negative ints.
-/

set_option maxHeartbeats 2000000

namespace Sicpy

/-- Zero-argument procedures constructed by the repository: the probe
observer of simulation/probe, the inverter observer invert_input, the
and-gate and or-gate observers, and the delayed-update lambda passed to
after_delay by each gate observer (it captures the output wire and the
value computed at schedule time).  Wires are identified by their index in
the simulation state. -/
inductive Action where
  | probeAct (name : String) (wire : Nat)
  | invertInput (input output : Nat)
  | andAction (a1 a2 output : Nat)
  | orAction (a1 a2 output : Nat)
  | setSig (wire : Nat) (value : Nat)
deriving DecidableEq, Repr

/-- Python values flowing through the pair primitives: None, int, str,
function (an Action closure), or a reference to a mutable Cons cell in the
heap. -/
inductive SVal where
  | nil
  | num (n : Nat)
  | str (s : String)
  | act (a : Action)
  | ptr (p : Nat)
deriving DecidableEq, Repr

/-- Python exceptions observable from the repository code: TypeError and
IndexError from the host, SchemeError from the function error (message
plus irritants).  fuelError is the modeling artifact for exhausted fuel. -/
inductive SErr where
  | typeError (msg : String)
  | indexError (msg : String)
  | schemeError (msg : String) (irritants : List SVal)
  | fuelError
deriving DecidableEq, Repr

/-- A mutable Cons cell: car slot and cdr slot. -/
abbrev Cell := SVal × SVal

/-- The heap of Cons cells, addressed by list position. -/
abbrev Heap := List Cell

/-- Reading a cell of the heap. -/
def heapGet (h : Heap) (p : Nat) : Option Cell := h[p]?

/-- Overwriting a cell of the heap. -/
def heapSet (h : Heap) (p : Nat) (c : Cell) : Heap := h.set p c

/-- cons of scheme.py: allocates a fresh Cons cell. -/
def cons (h : Heap) (a d : SVal) : Heap × SVal :=
  (h ++ [(a, d)], .ptr h.length)

/-- consp of scheme.py: isinstance(x, Cons). -/
def consp : SVal → Bool
  | .ptr _ => true
  | _ => false

/-- null of scheme.py: True for None, and for Sized values of length zero
(of the SVal universe only str is Sized); False otherwise, in particular
for Cons cells and ints, which are not Sized. -/
def null : SVal → Bool
  | .nil => true
  | .str s => s.length == 0
  | _ => false

/-- Python textual class names, used in host error messages. -/
def pyTypeName : SVal → String
  | .nil => "<class \x27NoneType\x27>"
  | .num _ => "<class \x27int\x27>"
  | .str _ => "<class \x27str\x27>"
  | .act _ => "<class \x27function\x27>"
  | .ptr _ => "<class \x27sicpy.scheme.Cons\x27>"

/-- Python object type names as they appear in item-assignment TypeErrors. -/
def pyObjName : SVal → String
  | .nil => "\x27NoneType\x27"
  | .num _ => "\x27int\x27"
  | .str _ => "\x27str\x27"
  | .act _ => "\x27function\x27"
  | .ptr _ => "\x27Cons\x27"

/-- error of scheme.py: raises SchemeError with the message and irritants. -/
def error (msg : String) (irritants : List SVal) : Except SErr α :=
  .error (.schemeError msg irritants)

/-- car of scheme.py: None yields None (permissive empty list), a str (a
Python Sequence) yields its first character or IndexError when empty, a
Cons cell yields its car slot; any other type hits the singledispatch
default, which raises the host TypeError.  A dangling pointer cannot occur
in Python and is mapped to a TypeError placeholder. -/
def car (h : Heap) : SVal → Except SErr SVal
  | .nil => .ok .nil
  | .str s =>
    if s.isEmpty then .error (.indexError "string index out of range")
    else .ok (.str (String.singleton s.front))
  | .ptr p =>
    match heapGet h p with
    | some c => .ok c.1
    | none => .error (.typeError "dangling pointer")
  | v => .error (.typeError ("Can\x27t take car of " ++ pyTypeName v))

/-- cdr of scheme.py: None yields None, a str yields the substring from
index 1, a Cons cell yields its cdr slot; any other type raises the host
TypeError from the singledispatch default. -/
def cdr (h : Heap) : SVal → Except SErr SVal
  | .nil => .ok .nil
  | .str s => .ok (.str (s.drop 1))
  | .ptr p =>
    match heapGet h p with
    | some c => .ok c.2
    | none => .error (.typeError "dangling pointer")
  | v => .error (.typeError ("Can\x27t take cdr of " ++ pyTypeName v))

/-- set_car of scheme.py: updates the car slot of a Cons cell in place.
The singledispatch default attempts the item assignment l[0] = x, which
for every non-indexable or immutable SVal raises the host TypeError. -/
def set_car (h : Heap) (l x : SVal) : Except SErr Heap :=
  match l with
  | .ptr p =>
    match heapGet h p with
    | some c => .ok (heapSet h p (x, c.2))
    | none => .error (.typeError "dangling pointer")
  | v => .error (.typeError (pyObjName v ++ " object does not support item assignment"))

/-- set_cdr of scheme.py: updates the cdr slot of a Cons cell in place.
The singledispatch default raises through error, that is SchemeError,
with the offending value and the new value as irritants. -/
def set_cdr (h : Heap) (l x : SVal) : Except SErr Heap :=
  match l with
  | .ptr p =>
    match heapGet h p with
    | some c => .ok (heapSet h p (c.1, x))
    | none => .error (.typeError "dangling pointer")
  | v => error ("Can\x27t set_cdr for " ++ pyTypeName v) [v, x]

/-- for_each_tail walk of scheme.py counting Cons cells, with fuel; used by
the Cons registration of length.  Any chain reachable in an acyclic heap
has at most h.length cells, and on a cyclic chain Python would not
terminate, so the fuel cutoff is unreachable on representable data. -/
def lengthTail (h : Heap) : Nat → SVal → Nat → Nat
  | 0, _, acc => acc
  | fuel + 1, v, acc =>
    match v with
    | .ptr p =>
      match heapGet h p with
      | some c => lengthTail h fuel c.2 (acc + 1)
      | none => acc
    | _ => acc

/-- length of scheme.py: len for Sized values (of the SVal universe only
str), the count of Cons cells along the cdr chain for a Cons, and the host
TypeError from the singledispatch default for every other type, including
None. -/
def length (h : Heap) : SVal → Except SErr Nat
  | .str s => .ok s.length
  | .ptr p => .ok (lengthTail h (h.length + 1) (.ptr p) 0)
  | v => .error (.typeError ("Can\x27t take length of " ++ pyTypeName v))

/-- str.isidentifier restricted to ASCII, as used by the repository only on
short alphabetic names. -/
def isIdentifier (s : String) : Bool :=
  !s.isEmpty && (s.front.isAlpha || s.front == '_') &&
    s.toList.all (fun c => c.isAlphanum || c == '_')

mutual

/-- repr of scheme.py: None renders as (), identifiers render bare, other
strings get Python quotes, ints render in decimal, and a Cons renders by
the while loop of Cons.__repr__.  The fuel bounds the recursion depth;
on acyclic heaps a fuel of heap length plus two suffices. -/
def reprAux (h : Heap) : Nat → SVal → String
  | 0, _ => "..."
  | fuel + 1, v =>
    match v with
    | .nil => "()"
    | .num n => Nat.repr n
    | .str s => if isIdentifier s then s else "\x27" ++ s ++ "\x27"
    | .act _ => "<function>"
    | .ptr p => reprWalk h fuel (.ptr p) "(" ""

/-- Body of the while loop of Cons.__repr__: walk the cdr chain appending
the rendering of each car, then close with the improper-list tail if the
terminator is not null. -/
def reprWalk (h : Heap) : Nat → SVal → String → String → String
  | 0, _, acc, _ => acc ++ "..."
  | fuel + 1, l, acc, sep =>
    match l with
    | .ptr p =>
      match heapGet h p with
      | some c => reprWalk h fuel c.2 (acc ++ sep ++ reprAux h fuel c.1) " "
      | none => acc ++ ")"
    | v => if null v then acc ++ ")" else acc ++ " . " ++ reprAux h fuel v ++ ")"

end

/-- repr of an SVal in a given heap, with fuel sufficient for any acyclic
traversal: a traversal path alternates cdr steps and car descents, each
visiting a distinct cell, so its depth is below twice the heap size. -/
def reprS (h : Heap) (v : SVal) : String := reprAux h (2 * h.length + 4) v

/-- front_ptr of queue.py. -/
def front_ptr (h : Heap) (queue : SVal) : Except SErr SVal := car h queue

/-- rear_ptr of queue.py. -/
def rear_ptr (h : Heap) (queue : SVal) : Except SErr SVal := cdr h queue

/-- set_front_ptr of queue.py. -/
def set_front_ptr (h : Heap) (queue item : SVal) : Except SErr Heap :=
  set_car h queue item

/-- set_rear_ptr of queue.py. -/
def set_rear_ptr (h : Heap) (queue item : SVal) : Except SErr Heap :=
  set_cdr h queue item

/-- empty_queue_p of queue.py: null of the front pointer. -/
def empty_queue_p (h : Heap) (queue : SVal) : Except SErr Bool :=
  match front_ptr h queue with
  | .ok fv => .ok (null fv)
  | .error e => .error e

/-- make_queue of queue.py: cons of two empty lists (list() with no
arguments yields None). -/
def make_queue (h : Heap) : Heap × SVal := cons h .nil .nil

/-- front_queue of queue.py. -/
def front_queue (h : Heap) (queue : SVal) : Except SErr SVal :=
  match empty_queue_p h queue with
  | .error e => .error e
  | .ok true => error "FRONT called with an empty queue" [queue]
  | .ok false =>
    match front_ptr h queue with
    | .error e => .error e
    | .ok fv => car h fv

/-- insert_queue of queue.py: allocate the one-item pair, then either set
both pointers (empty queue) or link it after the rear pair and advance the
rear pointer.  Returns the mutated heap and the queue value itself. -/
def insert_queue (h : Heap) (queue item : SVal) : Except SErr (Heap × SVal) :=
  let (h1, new_pair) := cons h item .nil
  match empty_queue_p h1 queue with
  | .error e => .error e
  | .ok true =>
    match set_front_ptr h1 queue new_pair with
    | .error e => .error e
    | .ok h2 =>
      match set_rear_ptr h2 queue new_pair with
      | .error e => .error e
      | .ok h3 => .ok (h3, queue)
  | .ok false =>
    match rear_ptr h1 queue with
    | .error e => .error e
    | .ok rv =>
      match set_cdr h1 rv new_pair with
      | .error e => .error e
      | .ok h2 =>
        match set_rear_ptr h2 queue new_pair with
        | .error e => .error e
        | .ok h3 => .ok (h3, queue)

/-- delete_queue of queue.py: advance the front pointer to its cdr. -/
def delete_queue (h : Heap) (queue : SVal) : Except SErr (Heap × SVal) :=
  match empty_queue_p h queue with
  | .error e => .error e
  | .ok true => error "DELETE! called with an empty queue" [queue]
  | .ok false =>
    match front_ptr h queue with
    | .error e => .error e
    | .ok fv =>
      match cdr h fv with
      | .error e => .error e
      | .ok fv1 =>
        match set_front_ptr h queue fv1 with
        | .error e => .error e
        | .ok h1 => .ok (h1, queue)

/-- ex_3_21 of queue.py: the embedded queue self-test.  Starting from an
empty queue in an empty heap: insert a, insert b, delete, delete,
collecting the structural rendering of the queue after each step (the
renderings the source compares against literals with assert). -/
def ex_3_21 : Except SErr (List String) :=
  let (h0, q1) := make_queue []
  match insert_queue h0 q1 (.str "a") with
  | .error e => .error e
  | .ok (h1, _) =>
    let r1 := reprS h1 q1
    match insert_queue h1 q1 (.str "b") with
    | .error e => .error e
    | .ok (h2, _) =>
      let r2 := reprS h2 q1
      match delete_queue h2 q1 with
      | .error e => .error e
      | .ok (h3, _) =>
        let r3 := reprS h3 q1
        match delete_queue h3 q1 with
        | .error e => .error e
        | .ok (h4, _) =>
          let r4 := reprS h4 q1
          .ok [r1, r2, r3, r4]

/-- logical_not of gates.py: 0 and 1 invert, anything else raises Invalid
signal through error (SchemeError). -/
def logical_not (s : Nat) : Except SErr Nat :=
  if s = 0 then .ok 1
  else if s = 1 then .ok 0
  else error "Invalid signal" [.num s]

/-- logical_and of gates.py: the bitwise AND a and b, total, no validation. -/
def logical_and (a b : Nat) : Nat := a &&& b

/-- logical_or of gates.py: the bitwise OR a or b, total, no validation. -/
def logical_or (a b : Nat) : Nat := a ||| b

/-- Modelled from the spec: the module sicpy.circuit.constants is imported
by gates.py (from .constants import star) but is not present in the source
tree; only its callers are.  Per section 4.7 of the spec it exposes the
three propagation delays as zero-argument accessors with default values
inverter delay 2, AND-gate delay 3, OR-gate delay 5. -/
def inverter_delay (_ : Unit) : Nat := 2

/-- Modelled from the spec: AND-gate delay accessor, default 3 (see
inverter_delay). -/
def and_gate_delay (_ : Unit) : Nat := 3

/-- Modelled from the spec: OR-gate delay accessor, default 5 (see
inverter_delay). -/
def or_gate_delay (_ : Unit) : Nat := 5

/-- Local state of a wire object of wire.py: the closure variables
signal_value (initially 0) and action_procedures (initially list(), that
is None; grown by consing, so the chain lives in the heap).  The message
dispatch of make_wire is exposed through the typed accessors get_signal,
set_signal and add_action, the only operation names the repository ever
sends; the UnknownOperation branch is unreachable through them. -/
structure WireSt where
  signal_value : Nat
  action_procedures : SVal
deriving DecidableEq, Repr

/-- make_wire of wire.py. -/
def make_wire : WireSt := { signal_value := 0, action_procedures := .nil }

/-- call_each of wire.py, observer-trace form: walks the list of
no-argument procedures and returns, in invocation order, the procedures it
calls.  The procedure bodies are opaque here (this form backs the claims
about invocation order); executing them is modeled separately in the
simulation below.  Fuel bounds the walk; the callers pass at least the
chain length plus one. -/
def call_each (h : Heap) : Nat → SVal → Except SErr (List SVal)
  | 0, _ => .error .fuelError
  | fuel + 1, procedures =>
    if null procedures then .ok []
    else
      match car h procedures with
      | .error e => .error e
      | .ok p =>
        match cdr h procedures with
        | .error e => .error e
        | .ok rest =>
          match call_each h fuel rest with
          | .error e => .error e
          | .ok others => .ok (p :: others)

/-- set_my_signal of wire.py, observer-trace form: when the new value
differs, store it and return the procedures call_each would invoke, in
order; otherwise report done having invoked nothing. -/
def set_my_signal (h : Heap) (w : WireSt) (new_value : Nat) :
    Except SErr (WireSt × List SVal) :=
  if w.signal_value ≠ new_value then
    let w1 := { w with signal_value := new_value }
    match call_each h (h.length + 1) w1.action_procedures with
    | .error e => .error e
    | .ok calls => .ok (w1, calls)
  else .ok (w, [])

/-- accept_action_procedure of wire.py: cons the new procedure onto
action_procedures, then run it once; the returned list records the
procedures invoked during registration (always exactly the new one). -/
def accept_action_procedure (h : Heap) (w : WireSt) (proc : SVal) :
    (Heap × WireSt) × List SVal :=
  let (h1, cell) := cons h proc w.action_procedures
  ((h1, { w with action_procedures := cell }), [proc])

/-- get_signal of wire.py. -/
def get_signal (w : WireSt) : Nat := w.signal_value

/-- set_signal of wire.py: dispatches to set_my_signal. -/
def set_signal (h : Heap) (w : WireSt) (new_value : Nat) :
    Except SErr (WireSt × List SVal) :=
  set_my_signal h w new_value

/-- add_action of wire.py: dispatches to accept_action_procedure. -/
def add_action (h : Heap) (w : WireSt) (proc : SVal) :
    (Heap × WireSt) × List SVal :=
  accept_action_procedure h w proc

/-- Registering a sequence of observers on a wire, in order, through
add_action. -/
def register_all : Heap → WireSt → List SVal → Heap × WireSt
  | h, w, [] => (h, w)
  | h, w, o :: os =>
    let ((h1, w1), _) := add_action h w o
    register_all h1 w1 os

/-- make_time_segment of agenda.py. -/
def make_time_segment (h : Heap) (time queue : SVal) : Heap × SVal :=
  cons h time queue

/-- segment_time of agenda.py. -/
def segment_time (h : Heap) (s : SVal) : Except SErr SVal := car h s

/-- segment_queue of agenda.py. -/
def segment_queue (h : Heap) (s : SVal) : Except SErr SVal := cdr h s

/-- make_agenda of agenda.py: list(0), a fresh one-element list holding
current time 0 and no segments. -/
def make_agenda (h : Heap) : Heap × SVal := cons h (.num 0) .nil

/-- current_time of agenda.py. -/
def current_time (h : Heap) (agenda : SVal) : Except SErr SVal := car h agenda

/-- set_current_time of agenda.py. -/
def set_current_time (h : Heap) (agenda time : SVal) : Except SErr Heap :=
  set_car h agenda time

/-- segments of agenda.py. -/
def segments (h : Heap) (agenda : SVal) : Except SErr SVal := cdr h agenda

/-- set_segments of agenda.py. -/
def set_segments (h : Heap) (agenda segs : SVal) : Except SErr Heap :=
  set_cdr h agenda segs

/-- first_segment of agenda.py. -/
def first_segment (h : Heap) (agenda : SVal) : Except SErr SVal :=
  match segments h agenda with
  | .error e => .error e
  | .ok sv => car h sv

/-- rest_segments of agenda.py. -/
def rest_segments (h : Heap) (agenda : SVal) : Except SErr SVal :=
  match segments h agenda with
  | .error e => .error e
  | .ok sv => cdr h sv

/-- empty_agenda_p of agenda.py. -/
def empty_agenda_p (h : Heap) (agenda : SVal) : Except SErr Bool :=
  match segments h agenda with
  | .error e => .error e
  | .ok sv => .ok (null sv)

/-- Reading a Python int out of an SVal; comparisons such as
time < segment_time in add_to_agenda require int operands, anything else
would be a host TypeError (unreachable on well-formed agendas). -/
def asNum : SVal → Except SErr Nat
  | .num n => .ok n
  | v => .error (.typeError ("unorderable type: " ++ pyTypeName v))

/-- belongs_before_p, inner helper of add_to_agenda of agenda.py. -/
def belongs_before_p (h : Heap) (time : Nat) (segs : SVal) : Except SErr Bool :=
  if null segs then .ok true
  else
    match car h segs with
    | .error e => .error e
    | .ok s =>
      match segment_time h s with
      | .error e => .error e
      | .ok tv =>
        match asNum tv with
        | .error e => .error e
        | .ok st => .ok (decide (time < st))

/-- make_new_time_segment, inner helper of add_to_agenda of agenda.py: a
fresh queue holding only the action, wrapped in a fresh segment pair. -/
def make_new_time_segment (h : Heap) (time : Nat) (action : SVal) :
    Except SErr (Heap × SVal) :=
  let (h1, q) := make_queue h
  match insert_queue h1 q action with
  | .error e => .error e
  | .ok (h2, _) => .ok (make_time_segment h2 (.num time) q)

/-- add_to_segments, inner recursion of add_to_agenda of agenda.py: find
the segment with this exact time and append to its queue, or splice a new
segment before the first strictly later one.  The fuel bounds the walk
along the segment chain; add_to_agenda passes heap length plus one, which
exceeds the length of any represented chain. -/
def add_to_segments (time : Nat) (action : SVal) :
    Nat → Heap → SVal → Except SErr Heap
  | 0, _, _ => .error .fuelError
  | fuel + 1, h, segs =>
    match car h segs with
    | .error e => .error e
    | .ok s =>
      match segment_time h s with
      | .error e => .error e
      | .ok tv =>
        match asNum tv with
        | .error e => .error e
        | .ok st =>
          if st = time then
            match segment_queue h s with
            | .error e => .error e
            | .ok q =>
              match insert_queue h q action with
              | .error e => .error e
              | .ok (h1, _) => .ok h1
          else
            match cdr h segs with
            | .error e => .error e
            | .ok rest =>
              match belongs_before_p h time rest with
              | .error e => .error e
              | .ok true =>
                match make_new_time_segment h time action with
                | .error e => .error e
                | .ok (h1, ns) =>
                  match cdr h1 segs with
                  | .error e => .error e
                  | .ok tail =>
                    let (h2, link) := cons h1 ns tail
                    set_cdr h2 segs link
              | .ok false => add_to_segments time action fuel h rest

/-- add_to_agenda of agenda.py. -/
def add_to_agenda (time : Nat) (action : SVal) (h : Heap) (agenda : SVal) :
    Except SErr Heap :=
  match segments h agenda with
  | .error e => .error e
  | .ok segs =>
    match belongs_before_p h time segs with
    | .error e => .error e
    | .ok true =>
      match make_new_time_segment h time action with
      | .error e => .error e
      | .ok (h1, ns) =>
        let (h2, link) := cons h1 ns segs
        set_segments h2 agenda link
    | .ok false => add_to_segments time action (h.length + 1) h segs

/-- remove_first_agenda_item of agenda.py: delete the front of the first
segment queue, dropping the segment when its queue drains. -/
def remove_first_agenda_item (h : Heap) (agenda : SVal) : Except SErr Heap :=
  match first_segment h agenda with
  | .error e => .error e
  | .ok fs =>
    match segment_queue h fs with
    | .error e => .error e
    | .ok q =>
      match delete_queue h q with
      | .error e => .error e
      | .ok (h1, _) =>
        match empty_queue_p h1 q with
        | .error e => .error e
        | .ok true =>
          match rest_segments h1 agenda with
          | .error e => .error e
          | .ok rs => set_segments h1 agenda rs
        | .ok false => .ok h1

/-- first_agenda_item of agenda.py: error on an empty agenda, otherwise
set the current time to the first segment time (a heap mutation) and
return the front of its queue. -/
def first_agenda_item (h : Heap) (agenda : SVal) : Except SErr (Heap × SVal) :=
  match empty_agenda_p h agenda with
  | .error e => .error e
  | .ok true => error "Agenda is empty -- FIRST-AGENDA-ITEM" []
  | .ok false =>
    match first_segment h agenda with
    | .error e => .error e
    | .ok first_seg =>
      match segment_time h first_seg with
      | .error e => .error e
      | .ok tv =>
        match set_current_time h agenda tv with
        | .error e => .error e
        | .ok h1 =>
          match segment_queue h1 first_seg with
          | .error e => .error e
          | .ok q =>
            match front_queue h1 q with
            | .error e => .error e
            | .ok item => .ok (h1, item)

/-- The extraction loop of propagate of agenda.py in observation form:
while the agenda is non-empty, extract the first item with
first_agenda_item, record the agenda current time together with the
extracted action instead of executing it, and remove it; the full
executing propagate of the simulation driver is defined further below.
Fuel bounds the number of iterations. -/
def drainAgenda : Nat → Heap → SVal → Except SErr (List (Nat × SVal))
  | 0, _, _ => .error .fuelError
  | fuel + 1, h, agenda =>
    match empty_agenda_p h agenda with
    | .error e => .error e
    | .ok true => .ok []
    | .ok false =>
      match first_agenda_item h agenda with
      | .error e => .error e
      | .ok (h1, item) =>
        match current_time h1 agenda with
        | .error e => .error e
        | .ok ctv =>
          match asNum ctv with
          | .error e => .error e
          | .ok ct =>
            match remove_first_agenda_item h1 agenda with
            | .error e => .error e
            | .ok h2 =>
              match drainAgenda fuel h2 agenda with
              | .error e => .error e
              | .ok rest => .ok ((ct, item) :: rest)

/-- Building an agenda by a sequence of add_to_agenda calls on a fresh
agenda in a fresh heap. -/
def runAdds (adds : List (Nat × SVal)) : Except SErr (Heap × SVal) :=
  let (h0, agenda) := make_agenda []
  match adds.foldlM (fun hh ta => add_to_agenda ta.1 ta.2 hh agenda) h0 with
  | .error e => .error e
  | .ok h => .ok (h, agenda)

/-- Building an agenda from a list of timed actions and then draining it
completely, pairing each extracted action with the agenda current time
observed right after its extraction. -/
def drainAll (adds : List (Nat × SVal)) : Except SErr (List (Nat × SVal)) :=
  match runAdds adds with
  | .error e => .error e
  | .ok (h, agenda) => drainAgenda (adds.length + 1) h agenda

/-- Full simulation state for the demonstration driver: the heap of Cons
cells (wire observer chains and the agenda structure), the wires by index,
the lazily created process-wide agenda singleton of the_agenda (None until
first use, then its heap reference, memoized as by functools.lru_cache),
and the text written to standard output so far. -/
structure Sim where
  heap : Heap
  wires : List WireSt
  agenda : Option SVal
  out : String
deriving Repr

/-- the_agenda of agenda.py: the memoized process-wide agenda, created by
make_agenda on first call and reused thereafter. -/
def the_agenda (st : Sim) : Sim × SVal :=
  match st.agenda with
  | some agenda => (st, agenda)
  | none =>
    let (h, agenda) := make_agenda st.heap
    ({ st with heap := h, agenda := some agenda }, agenda)

/-- display of scheme.py: write the text to standard output. -/
def display (st : Sim) (s : String) : Sim := { st with out := st.out ++ s }

/-- newline of scheme.py. -/
def newline (st : Sim) : Sim := display st "\n"

/-- The wire bound to an index (indices are always in range in the
simulation; the default is irrelevant). -/
def wireAt (st : Sim) (w : Nat) : WireSt := st.wires.getD w make_wire

/-- Replacing the state of one wire. -/
def setWire (st : Sim) (w : Nat) (ws : WireSt) : Sim :=
  { st with wires := st.wires.set w ws }

/-- make_wire of wire.py at the simulation level: allocates a fresh wire
and returns its index. -/
def make_wire_run (st : Sim) : Sim × Nat :=
  ({ st with wires := st.wires ++ [make_wire] }, st.wires.length)

/-- after_delay of agenda.py with the default agenda argument: add the
action to the_agenda at current time plus delay. -/
def after_delay_run (st : Sim) (delay : Nat) (action : Action) :
    Sim × Except SErr Unit :=
  let (st1, agenda) := the_agenda st
  match current_time st1.heap agenda with
  | .error e => (st1, .error e)
  | .ok ctv =>
    match asNum ctv with
    | .error e => (st1, .error e)
    | .ok ct =>
      match add_to_agenda (delay + ct) (.act action) st1.heap agenda with
      | .error e => (st1, .error e)
      | .ok h1 => ({ st1 with heap := h1 }, .ok ())

/-- The two mutually recursive executable activities of the simulator:
running one zero-argument procedure, and the call_each walk that runs each
procedure of a wire observer chain in list order.  They are packed into
one fuel-indexed function so that execution is plain structural recursion. -/
inductive Task where
  | run (a : Action)
  | each (procedures : SVal)

/-- Executing a Task against the simulation state.  Task.run a is the body
of the closure a: the probe observer prints its line, the gate observers
read their input signals and schedule a delayed update through
after_delay, and the scheduled update lambda performs set_signal, whose
set_my_signal body stores a changed value and then runs call_each, that is
Task.each, over the action_procedures chain of the wire.  Errors carry the
state already mutated, as Python exceptions do. -/
def exec : Nat → Sim → Task → Sim × Except SErr Unit
  | 0, st, _ => (st, .error .fuelError)
  | fuel + 1, st, .run a =>
    match a with
    | .probeAct name w =>
      let st1 := display st name
      let st2 := display st1 " "
      let (st3, agenda) := the_agenda st2
      match current_time st3.heap agenda with
      | .error e => (st3, .error e)
      | .ok ctv =>
        match asNum ctv with
        | .error e => (st3, .error e)
        | .ok ct =>
          let st4 := display st3 (Nat.repr ct)
          let st5 := display st4 "  New-value = "
          let st6 := display st5 (Nat.repr (get_signal (wireAt st5 w)))
          (newline st6, .ok ())
    | .invertInput input output =>
      match logical_not (get_signal (wireAt st input)) with
      | .error e => (st, .error e)
      | .ok new_value =>
        after_delay_run st (inverter_delay ()) (.setSig output new_value)
    | .andAction a1 a2 output =>
      let new_value :=
        logical_and (get_signal (wireAt st a1)) (get_signal (wireAt st a2))
      after_delay_run st (and_gate_delay ()) (.setSig output new_value)
    | .orAction a1 a2 output =>
      let new_value :=
        logical_or (get_signal (wireAt st a1)) (get_signal (wireAt st a2))
      after_delay_run st (or_gate_delay ()) (.setSig output new_value)
    | .setSig w new_value =>
      if (wireAt st w).signal_value ≠ new_value then
        let st1 := setWire st w { wireAt st w with signal_value := new_value }
        exec fuel st1 (.each (wireAt st1 w).action_procedures)
      else (st, .ok ())
  | fuel + 1, st, .each procedures =>
    if null procedures then (st, .ok ())
    else
      match car st.heap procedures with
      | .error e => (st, .error e)
      | .ok pv =>
        match pv with
        | .act a =>
          match exec fuel st (.run a) with
          | (st1, .ok _) =>
            match cdr st1.heap procedures with
            | .error e => (st1, .error e)
            | .ok rest => exec fuel st1 (.each rest)
          | (st1, .error e) => (st1, .error e)
        | v => (st, .error (.typeError (pyObjName v ++ " object is not callable")))

/-- set_signal of wire.py at the simulation level, executing the observer
procedures it triggers (the body of set_my_signal, with call_each executed
through exec). -/
def set_signal_run (fuel : Nat) (st : Sim) (w new_value : Nat) :
    Sim × Except SErr Unit :=
  if (wireAt st w).signal_value ≠ new_value then
    let st1 := setWire st w { wireAt st w with signal_value := new_value }
    exec fuel st1 (.each (wireAt st1 w).action_procedures)
  else (st, .ok ())

/-- add_action of wire.py at the simulation level: accept_action_procedure
conses the procedure onto the wire chain and runs it once. -/
def add_action_run (fuel : Nat) (st : Sim) (w : Nat) (proc : Action) :
    Sim × Except SErr Unit :=
  let ws := wireAt st w
  let (h1, cell) := cons st.heap (.act proc) ws.action_procedures
  let st1 :=
    { st with heap := h1,
              wires := st.wires.set w { ws with action_procedures := cell } }
  exec fuel st1 (.run proc)

/-- probe of simulation/probe: registers the printing observer. -/
def probe_run (fuel : Nat) (st : Sim) (name : String) (wire : Nat) :
    Sim × Except SErr Unit :=
  add_action_run fuel st wire (.probeAct name wire)

/-- inverter of gates.py: registers invert_input on the input wire. -/
def inverter_run (fuel : Nat) (st : Sim) (input output : Nat) :
    Sim × Except SErr String :=
  match add_action_run fuel st input (.invertInput input output) with
  | (st1, .ok _) => (st1, .ok "ok")
  | (st1, .error e) => (st1, .error e)

/-- and_gate of gates.py: registers the same observer on both inputs. -/
def and_gate_run (fuel : Nat) (st : Sim) (a1 a2 output : Nat) :
    Sim × Except SErr String :=
  match add_action_run fuel st a1 (.andAction a1 a2 output) with
  | (st1, .ok _) =>
    match add_action_run fuel st1 a2 (.andAction a1 a2 output) with
    | (st2, .ok _) => (st2, .ok "ok")
    | (st2, .error e) => (st2, .error e)
  | (st1, .error e) => (st1, .error e)

/-- or_gate of gates.py: registers the same observer on both inputs. -/
def or_gate_run (fuel : Nat) (st : Sim) (a1 a2 output : Nat) :
    Sim × Except SErr String :=
  match add_action_run fuel st a1 (.orAction a1 a2 output) with
  | (st1, .ok _) =>
    match add_action_run fuel st1 a2 (.orAction a1 a2 output) with
    | (st2, .ok _) => (st2, .ok "ok")
    | (st2, .error e) => (st2, .error e)
  | (st1, .error e) => (st1, .error e)

/-- half_adder of gates.py: two fresh internal wires d and e, then
or_gate(a, b, d), and_gate(a, b, c), inverter(c, e), and_gate(d, e, s). -/
def half_adder_run (fuel : Nat) (st : Sim) (a b s c : Nat) :
    Sim × Except SErr String :=
  let (st1, d) := make_wire_run st
  let (st2, e) := make_wire_run st1
  match or_gate_run fuel st2 a b d with
  | (st3, .ok _) =>
    match and_gate_run fuel st3 a b c with
    | (st4, .ok _) =>
      match inverter_run fuel st4 c e with
      | (st5, .ok _) =>
        match and_gate_run fuel st5 d e s with
        | (st6, .ok _) => (st6, .ok "ok")
        | (st6, .error er) => (st6, .error er)
      | (st5, .error er) => (st5, .error er)
    | (st4, .error er) => (st4, .error er)
  | (st3, .error er) => (st3, .error er)

/-- full_adder of gates.py: three fresh internal wires s, c1, c2, then
half_adder(b, c_in, s, c1), half_adder(a, s, sum, c2),
or_gate(c1, c2, c_out). -/
def full_adder_run (fuel : Nat) (st : Sim) (a b c_in sum c_out : Nat) :
    Sim × Except SErr String :=
  let (st1, s) := make_wire_run st
  let (st2, c1) := make_wire_run st1
  let (st3, c2) := make_wire_run st2
  match half_adder_run fuel st3 b c_in s c1 with
  | (st4, .ok _) =>
    match half_adder_run fuel st4 a s sum c2 with
    | (st5, .ok _) =>
      match or_gate_run fuel st5 c1 c2 c_out with
      | (st6, .ok _) => (st6, .ok "ok")
      | (st6, .error er) => (st6, .error er)
    | (st5, .error er) => (st5, .error er)
  | (st4, .error er) => (st4, .error er)

/-- The while loop of propagate of agenda.py: on a non-empty agenda take
the first item (advancing current time), execute it, remove it, repeat;
answer done when the agenda empties. -/
def propagate_loop : Nat → Sim → SVal → Sim × Except SErr String
  | 0, st, _ => (st, .error .fuelError)
  | fuel + 1, st, agenda =>
    match empty_agenda_p st.heap agenda with
    | .error e => (st, .error e)
    | .ok true => (st, .ok "done")
    | .ok false =>
      match first_agenda_item st.heap agenda with
      | .error e => (st, .error e)
      | .ok (h1, first_item) =>
        let st1 := { st with heap := h1 }
        match first_item with
        | .act a =>
          match exec fuel st1 (.run a) with
          | (st2, .ok _) =>
            match remove_first_agenda_item st2.heap agenda with
            | .error e => (st2, .error e)
            | .ok h3 => propagate_loop fuel { st2 with heap := h3 } agenda
          | (st2, .error e) => (st2, .error e)
        | v => (st1, .error (.typeError (pyObjName v ++ " object is not callable")))

/-- propagate of agenda.py with the default agenda argument. -/
def propagate_run (fuel : Nat) (st : Sim) : Sim × Except SErr String :=
  let (st1, agenda) := the_agenda st
  propagate_loop fuel st1 agenda

/-- The empty starting state of a process. -/
def sim0 : Sim := { heap := [], wires := [], agenda := none, out := "" }

/-- Sequencing plumbing: continue with the state when the previous step
succeeded, otherwise surface the error with the state it left behind. -/
def seqSim (r : Sim × Except SErr α) (k : Sim → Sim × Except SErr β) :
    Sim × Except SErr β :=
  match r with
  | (st, .ok _) => k st
  | (st, .error e) => (st, .error e)

/-- The module body of circuit/simulation/main: create wires input_1,
input_2, sum and carry, probe sum and carry, build the half-adder, set
input_1 to 1 and propagate, set input_2 to 1 and propagate.  The fuel 100
amply covers the 16 scheduled events and the bounded nesting of the run. -/
def demoMain : Sim × Except SErr String :=
  let (st0, input_1) := make_wire_run sim0
  let (st1, input_2) := make_wire_run st0
  let (st2, sum) := make_wire_run st1
  let (st3, carry) := make_wire_run st2
  seqSim (probe_run 100 st3 "sum" sum) fun st4 =>
  seqSim (probe_run 100 st4 "carry" carry) fun st5 =>
  seqSim (half_adder_run 100 st5 input_1 input_2 sum carry) fun st6 =>
  seqSim (set_signal_run 100 st6 input_1 1) fun st7 =>
  seqSim (propagate_run 100 st7) fun st8 =>
  seqSim (set_signal_run 100 st8 input_2 1) fun st9 =>
  propagate_run 100 st9

/-- Discriminating the SchemeError simulation-error kind from host errors. -/
def isSchemeError : SErr → Bool
  | .schemeError _ _ => true
  | _ => false

/-- A proper cdr-linked chain in the heap: the value v is a list of the
given items stored in the given cells, terminated by None. -/
inductive Chain (h : Heap) : SVal → List SVal → List Nat → Prop
  | nil : Chain h .nil [] []
  | cons {p : Nat} {x d : SVal} {xs : List SVal} {ps : List Nat} :
      heapGet h p = some (x, d) → Chain h d xs ps →
      Chain h (.ptr p) (x :: xs) (p :: ps)

/-- Representation of a queue of queue.py in the heap: a header cell whose
car is the front chain of items and whose cdr, when the queue is
non-empty, is the last cell of that chain.  cells lists the header and the
chain cells, the footprint the queue operations read and write. -/
def QueueRep (h : Heap) (q : SVal) (items : List SVal) (cells : List Nat) : Prop :=
  ∃ qp fv rv ps, q = .ptr qp ∧ heapGet h qp = some (fv, rv) ∧
    Chain h fv items ps ∧ cells = qp :: ps ∧
    (items ≠ [] → ∃ lp, ps.getLast? = some lp ∧ rv = .ptr lp)

/-- Representation of a time segment of agenda.py: a pair of the time and
a non-empty queue of actions (segments with drained queues are removed at
once by remove_first_agenda_item, so live segments are never empty). -/
def SegRep (h : Heap) (sv : SVal) (t : Nat) (acts : List SVal)
    (cells : List Nat) : Prop :=
  ∃ sp qv qcells, sv = .ptr sp ∧ heapGet h sp = some (.num t, qv) ∧
    QueueRep h qv acts qcells ∧ cells = sp :: qcells ∧ acts ≠ []

/-- Representation of the segment list of an agenda: a chain of link cells
each holding one represented segment. -/
inductive SegsRep (h : Heap) : SVal → List (Nat × List SVal) → List Nat → Prop
  | nil : SegsRep h .nil [] []
  | cons {p : Nat} {sv rest : SVal} {t : Nat} {acts : List SVal}
      {segs : List (Nat × List SVal)} {scells rcells : List Nat} :
      heapGet h p = some (sv, rest) →
      SegRep h sv t acts scells →
      SegsRep h rest segs rcells →
      SegsRep h (.ptr p) ((t, acts) :: segs) (p :: scells ++ rcells)

/-- Representation of an agenda of agenda.py: the head cell holds the
current time and the segment list; the segment times are strictly
increasing and the whole footprint is free of aliasing (every cell plays
one role). -/
def AgendaRep (h : Heap) (agenda : SVal) (ct : Nat)
    (segs : List (Nat × List SVal)) (cells : List Nat) : Prop :=
  ∃ ap sv scells, agenda = .ptr ap ∧ heapGet h ap = some (.num ct, sv) ∧
    SegsRep h sv segs scells ∧ cells = ap :: scells ∧ cells.Nodup ∧
    (segs.map Prod.fst).Pairwise (· < ·)

/-- Abstract mirror of add_to_agenda on abstract segment lists: append to
the segment with the exact time, or splice a fresh singleton segment
before the first strictly later one. -/
def absInsert (time : Nat) (action : SVal) :
    List (Nat × List SVal) → List (Nat × List SVal)
  | [] => [(time, [action])]
  | (t, q) :: rest =>
    if t = time then (t, q ++ [action]) :: rest
    else if time < t then (time, [action]) :: (t, q) :: rest
    else (t, q) :: absInsert time action rest

/-- Abstract agenda contents after a sequence of adds on a fresh agenda. -/
def buildAbs (adds : List (Nat × SVal)) : List (Nat × List SVal) :=
  adds.foldl (fun segs ta => absInsert ta.1 ta.2 segs) []

/-- Flattening an abstract segment list into extraction order, pairing
each action with its segment time. -/
def flattenSegs (segs : List (Nat × List SVal)) : List (Nat × SVal) :=
  segs.flatMap fun tq => tq.2.map fun a => (tq.1, a)

/-- Total number of pending actions of an abstract segment list. -/
def countSegs (segs : List (Nat × List SVal)) : Nat :=
  (flattenSegs segs).length

/-- First-match association lookup on an abstract segment list. -/
def lookupT (time : Nat) : List (Nat × List SVal) → List SVal
  | [] => []
  | (t, q) :: rest => if t = time then q else lookupT time rest

/-
Theorems.  The development above is definitions only; everything below is
proofs about it.
-/

/-- Claim C1: running the demonstration driver (create wires input_1,
input_2, sum, carry; probe sum and carry; build the half-adder; set
input_1 to 1 and propagate; set input_2 to 1 and propagate), with the
default delays, writes to standard output exactly the five trace lines
sum 0  New-value = 0, carry 0  New-value = 0, sum 8  New-value = 1,
carry 11  New-value = 1, sum 16  New-value = 0, in that order, and both
propagate calls run to completion. -/
theorem claim_C1 :
    (demoMain).1.out =
      "sum 0  New-value = 0\n" ++ "carry 0  New-value = 0\n" ++
      "sum 8  New-value = 1\n" ++ "carry 11  New-value = 1\n" ++
      "sum 16  New-value = 0\n" ∧
    (demoMain).2 = .ok "done" := by
  exact ⟨by decide, rfl⟩

/-- Claim C2: starting from make_queue (an empty queue), the sequence
insert a, insert b, delete, delete produces a queue whose structural
rendering after each step equals, in order, ((a) a), ((a b) b), ((b) b),
(() b). -/
theorem claim_C2 :
    ex_3_21 = .ok ["((a) a)", "((a b) b)", "((b) b)", "(() b)"] := rfl

/-- Claim C6: for every wire and every observer, add_action invokes the
observer exactly once immediately at registration time (the invocation
trace of the registration is exactly the singleton of the observer),
regardless of whether the signal of the wire has ever changed. -/
theorem claim_C6 : ∀ (h : Heap) (w : WireSt) (proc : SVal),
    (add_action h w proc).2 = [proc] :=
  fun _ _ _ => rfl

/-- Claim C7 counterexample: the claim says every logic function raises
InvalidSignal on inputs other than 0 and 1, but logical_and and
logical_or are plain total bitwise operations: at the concrete non-binary
inputs 2 and 3 they return values (2 and 3) instead of raising. -/
theorem claim_C7_counterexample :
    logical_and 2 3 = 2 ∧ logical_or 2 3 = 3 := ⟨rfl, rfl⟩

/-- Claim C7 as amended: for every input other than 0 or 1, logical_not
raises the InvalidSignal simulation error; logical_and and logical_or
never raise, computing bitwise AND and OR, which on binary inputs yield
binary outputs. -/
theorem claim_C7 :
    (∀ s : Nat, s ≠ 0 → s ≠ 1 →
      logical_not s = Except.error (.schemeError "Invalid signal" [.num s])) ∧
    (∀ a b : Nat, a ≤ 1 → b ≤ 1 →
      logical_and a b ≤ 1 ∧ logical_or a b ≤ 1) := by
  constructor
  · intro s h0 h1
    unfold logical_not
    rw [if_neg h0, if_neg h1]
    rfl
  · intro a b ha hb
    interval_cases a <;> interval_cases b <;> exact ⟨by decide, by decide⟩

/-- Claim C7 witness: the amended claim applied at the concrete inputs 2
(for the raising part) and 1, 1 (for the binary part). -/
theorem claim_C7_witness :
    logical_not 2 = Except.error (.schemeError "Invalid signal" [.num 2]) ∧
    logical_and 1 1 ≤ 1 ∧ logical_or 1 1 ≤ 1 :=
  ⟨claim_C7.1 2 (by decide) (by decide),
   (claim_C7.2 1 1 (by decide) (by decide)).1,
   (claim_C7.2 1 1 (by decide) (by decide)).2⟩

/-- Claim C8 counterexample: the claim says the pair primitives raise the
TypeMismatch failure through the single simulation-error kind (SchemeError
with message and irritants), but first applied to the unsupported int 5
raises the host TypeError, which is not the simulation-error kind. -/
theorem claim_C8_counterexample :
    car [] (SVal.num 5) =
      Except.error (.typeError "Can\x27t take car of <class \x27int\x27>") ∧
    isSchemeError (.typeError "Can\x27t take car of <class \x27int\x27>") = false :=
  ⟨rfl, rfl⟩

/-- Claim C8 as amended: applied to a value of an unsupported type (an
int), the primitives first, rest and length raise the host TypeError, not
the simulation-error kind; setFirst attempts item assignment, which also
raises the host TypeError; only setRest signals the failure through the
simulation-error kind, carrying a message and the irritants. -/
theorem claim_C8 : ∀ (h : Heap) (n : Nat) (x : SVal),
    car h (.num n) =
      Except.error (.typeError "Can\x27t take car of <class \x27int\x27>") ∧
    cdr h (.num n) =
      Except.error (.typeError "Can\x27t take cdr of <class \x27int\x27>") ∧
    length h (.num n) =
      Except.error (.typeError "Can\x27t take length of <class \x27int\x27>") ∧
    set_car h (.num n) x =
      Except.error (.typeError "\x27int\x27 object does not support item assignment") ∧
    set_cdr h (.num n) x =
      Except.error (.schemeError "Can\x27t set_cdr for <class \x27int\x27>" [.num n, x]) :=
  fun _ _ _ => ⟨rfl, rfl, rfl, rfl, rfl⟩

/-- Reading a cell pins its address below the heap length. -/
theorem heapGet_lt {h : Heap} {p : Nat} {c : Cell} (hg : heapGet h p = some c) :
    p < h.length := by
  by_contra hlt
  rw [heapGet, List.getElem?_eq_none (by omega)] at hg
  exact Option.noConfusion hg

/-- Extending the heap preserves reads of existing cells. -/
theorem heapGet_append {h l : Heap} {p : Nat} (hp : p < h.length) :
    heapGet (h ++ l) p = heapGet h p := by
  simp [heapGet, List.getElem?_append, hp]

/-- Reading the cell just allocated at the end of the heap. -/
theorem heapGet_concat {h : Heap} {c : Cell} :
    heapGet (h ++ [c]) h.length = some c := by
  simp [heapGet]

/-- Writing one cell leaves every other cell unchanged. -/
theorem heapGet_set_ne {h : Heap} {p q : Nat} {c : Cell} (hne : q ≠ p) :
    heapGet (heapSet h p c) q = heapGet h q := by
  simp [heapGet, heapSet, List.getElem?_set_ne (Ne.symm hne)]

/-- Reading back a written cell. -/
theorem heapGet_set_self {h : Heap} {p : Nat} {c : Cell} (hp : p < h.length) :
    heapGet (heapSet h p c) p = some c := by
  simp [heapGet, heapSet, List.getElem?_set_self, hp]

/-- A chain only depends on the heap cells it occupies. -/
theorem chain_frame {h h' : Heap} {v : SVal} {xs : List SVal} {ps : List Nat}
    (hc : Chain h v xs ps) (hagree : ∀ p ∈ ps, heapGet h' p = heapGet h p) :
    Chain h' v xs ps := by
  induction hc with
  | nil => exact .nil
  | cons hget _ ih =>
    exact .cons ((hagree _ (List.mem_cons_self _ _)).trans hget)
      (ih fun p hp => hagree p (List.mem_cons_of_mem _ hp))

/-- All cells of a chain are valid heap addresses. -/
theorem chain_lt {h : Heap} {v : SVal} {xs : List SVal} {ps : List Nat}
    (hc : Chain h v xs ps) : ∀ p ∈ ps, p < h.length := by
  induction hc with
  | nil => intro p hp; cases hp
  | cons hget _ ih =>
    intro p hp
    rcases List.mem_cons.mp hp with rfl | hp
    · exact heapGet_lt hget
    · exact ih p hp

/-- A chain stores as many items as cells. -/
theorem chain_length {h : Heap} {v : SVal} {xs : List SVal} {ps : List Nat}
    (hc : Chain h v xs ps) : ps.length = xs.length := by
  induction hc with
  | nil => rfl
  | cons _ _ ih => simpa using ih

/-- register_all grows the observer chain of the wire one fresh cell per
observer, most recent first, leaving the signal untouched. -/
theorem register_all_chain :
    ∀ (os : List SVal) (h : Heap) (w : WireSt) (xs : List SVal) (ps : List Nat),
      Chain h w.action_procedures xs ps →
      ∃ ps', Chain (register_all h w os).1
               ((register_all h w os).2.action_procedures)
               (os.reverse ++ xs) ps' ∧
             (register_all h w os).1.length = h.length + os.length ∧
             (register_all h w os).2.signal_value = w.signal_value := by
  intro os
  induction os with
  | nil => intro h w xs ps hc; exact ⟨ps, by simpa using hc, by simp [register_all], rfl⟩
  | cons o os ih =>
    intro h w xs ps hc
    have hstep : Chain (h ++ [(o, w.action_procedures)]) (.ptr h.length)
        (o :: xs) (h.length :: ps) :=
      .cons heapGet_concat
        (chain_frame hc fun p hp => heapGet_append (chain_lt hc p hp))
    rcases ih (h ++ [(o, w.action_procedures)])
        { w with action_procedures := .ptr h.length } (o :: xs) (h.length :: ps)
        hstep with ⟨ps', hc', hlen, hsig⟩
    refine ⟨ps', ?_, ?_, ?_⟩
    · have : os.reverse ++ o :: xs = (o :: os).reverse ++ xs := by simp
      rw [← this]
      exact hc'
    · simp only [register_all, add_action, accept_action_procedure, cons]
      simp only [List.length_append, List.length_cons, List.length_nil] at hlen ⊢
      omega
    · simp only [register_all, add_action, accept_action_procedure, cons]
      exact hsig

/-- call_each invokes exactly the chain items, in chain order, given fuel
beyond the chain length. -/
theorem call_each_chain {h : Heap} {v : SVal} {xs : List SVal} {ps : List Nat}
    (hc : Chain h v xs ps) :
    ∀ fuel : Nat, xs.length < fuel → call_each h fuel v = .ok xs := by
  induction hc with
  | nil =>
    intro fuel hfuel
    match fuel, hfuel with
    | fuel + 1, _ => rfl
  | cons hget hrest ih =>
    intro fuel hfuel
    match fuel, hfuel with
    | fuel + 1, hfuel =>
      have hr : call_each h fuel _ = .ok _ := ih fuel (by
        simp only [List.length_cons] at hfuel; omega)
      simp only [call_each, null, car, cdr, hget, hr]
      rfl

/-- Claim C5: for every wire with no observers yet and every sequence of
observers registered on it in order through add_action, a subsequent
set_signal call that changes the value of the wire invokes exactly the
registered observers in reverse order of registration (most recently
added first), storing the new value. -/
theorem claim_C5 (h : Heap) (w : WireSt) (os : List SVal) (nv : Nat)
    (hw : w.action_procedures = .nil) (hnv : nv ≠ w.signal_value) :
    set_signal (register_all h w os).1 (register_all h w os).2 nv =
      .ok ({ (register_all h w os).2 with signal_value := nv }, os.reverse) := by
  have hc0 : Chain h w.action_procedures [] [] := by rw [hw]; exact .nil
  rcases register_all_chain os h w [] [] hc0 with ⟨ps', hc, hlen, hsig⟩
  have hne : (register_all h w os).2.signal_value ≠ nv := by
    rw [hsig]; exact fun hh => hnv hh.symm
  have hcall : call_each (register_all h w os).1 ((register_all h w os).1.length + 1)
      (register_all h w os).2.action_procedures = .ok (os.reverse ++ []) := by
    refine call_each_chain hc _ ?_
    rw [hlen]
    simp only [List.append_nil, List.length_reverse]
    omega
  simp only [List.append_nil] at hcall
  simp only [set_signal, set_my_signal, if_pos hne, hcall]

/-- Claim C5 witness: two observers p and q registered in that order on a
fresh wire in the empty heap; setting the signal to 1 invokes q then p. -/
theorem claim_C5_witness :
    set_signal (register_all [] make_wire [.str "p", .str "q"]).1
        (register_all [] make_wire [.str "p", .str "q"]).2 1 =
      .ok ({ (register_all [] make_wire [.str "p", .str "q"]).2 with
               signal_value := 1 },
           [.str "q", .str "p"]) :=
  claim_C5 [] make_wire [.str "p", .str "q"] 1 rfl (by decide)

/-- Claim C9: the three delay values consumed by the gate constructors are
exposed as zero-argument accessors returning 2, 3 and 5 (non-negative by
the Nat type). -/
theorem claim_C9 :
    inverter_delay () = 2 ∧ and_gate_delay () = 3 ∧ or_gate_delay () = 5 :=
  ⟨rfl, rfl, rfl⟩

/-- Reading any valid address yields a cell. -/
theorem heapGet_total {h : Heap} {p : Nat} (hp : p < h.length) :
    ∃ c, heapGet h p = some c := by
  rw [heapGet, List.getElem?_eq_getElem hp]
  exact ⟨_, rfl⟩

/-- A queue representation only depends on its footprint. -/
theorem queueRep_frame {h h' : Heap} {q : SVal} {items : List SVal}
    {cells : List Nat} (hq : QueueRep h q items cells)
    (hagree : ∀ p ∈ cells, heapGet h' p = heapGet h p) :
    QueueRep h' q items cells := by
  obtain ⟨qp, fv, rv, ps, rfl, hget, hc, rfl, hrear⟩ := hq
  exact ⟨qp, fv, rv, ps, rfl, (hagree _ (List.mem_cons_self _ _)).trans hget,
    chain_frame hc (fun p hp => hagree p (List.mem_cons_of_mem _ hp)), rfl, hrear⟩

/-- The footprint of a queue representation is valid. -/
theorem queueRep_lt {h : Heap} {q : SVal} {items : List SVal} {cells : List Nat}
    (hq : QueueRep h q items cells) : ∀ p ∈ cells, p < h.length := by
  obtain ⟨qp, fv, rv, ps, rfl, hget, hc, rfl, hrear⟩ := hq
  intro p hp
  rcases List.mem_cons.mp hp with rfl | hp
  · exact heapGet_lt hget
  · exact chain_lt hc p hp

/-- A segment representation only depends on its footprint. -/
theorem segRep_frame {h h' : Heap} {sv : SVal} {t : Nat} {acts : List SVal}
    {cells : List Nat} (hs : SegRep h sv t acts cells)
    (hagree : ∀ p ∈ cells, heapGet h' p = heapGet h p) :
    SegRep h' sv t acts cells := by
  obtain ⟨sp, qv, qcells, rfl, hget, hq, rfl, hne⟩ := hs
  exact ⟨sp, qv, qcells, rfl, (hagree _ (List.mem_cons_self _ _)).trans hget,
    queueRep_frame hq (fun p hp => hagree p (List.mem_cons_of_mem _ hp)), rfl, hne⟩

/-- The footprint of a segment representation is valid. -/
theorem segRep_lt {h : Heap} {sv : SVal} {t : Nat} {acts : List SVal}
    {cells : List Nat} (hs : SegRep h sv t acts cells) :
    ∀ p ∈ cells, p < h.length := by
  obtain ⟨sp, qv, qcells, rfl, hget, hq, rfl, hne⟩ := hs
  intro p hp
  rcases List.mem_cons.mp hp with rfl | hp
  · exact heapGet_lt hget
  · exact queueRep_lt hq p hp

/-- A segment-list representation only depends on its footprint. -/
theorem segsRep_frame {h h' : Heap} {v : SVal} {segs : List (Nat × List SVal)}
    {cells : List Nat} (hs : SegsRep h v segs cells)
    (hagree : ∀ p ∈ cells, heapGet h' p = heapGet h p) :
    SegsRep h' v segs cells := by
  induction hs with
  | nil => exact .nil
  | cons hget hseg _ ih =>
    refine .cons ((hagree _ (by simp)).trans hget)
      (segRep_frame hseg fun p hp => hagree p (by simp [hp])) (ih ?_)
    intro p hp
    exact hagree p (by simp [hp])

/-- The footprint of a segment-list representation is valid. -/
theorem segsRep_lt {h : Heap} {v : SVal} {segs : List (Nat × List SVal)}
    {cells : List Nat} (hs : SegsRep h v segs cells) :
    ∀ p ∈ cells, p < h.length := by
  induction hs with
  | nil => intro p hp; cases hp
  | cons hget hseg _ ih =>
    intro p hp
    rcases List.mem_cons.mp hp with rfl | hp
    · exact heapGet_lt hget
    rcases List.mem_append.mp hp with hp | hp
    · exact segRep_lt hseg p hp
    · exact ih p hp

/-- getLast? skips over the head of a list with a non-empty tail. -/
theorem getLast?_cons_ne {α : Type _} {x : α} {l : List α} (hl : l ≠ []) :
    (x :: l).getLast? = l.getLast? := by
  cases l with
  | nil => exact absurd rfl hl
  | cons y l' => exact List.getLast?_cons_cons

/-- The last element of a list belongs to it. -/
theorem mem_getLast? {α : Type _} : ∀ {l : List α} {a : α},
    l.getLast? = some a → a ∈ l := by
  intro l
  induction l with
  | nil => intro a hh; cases hh
  | cons x l ih =>
    intro a hh
    cases l with
    | nil =>
      simp only [List.getLast?_singleton, Option.some.injEq] at hh
      simp [hh]
    | cons y l' =>
      rw [List.getLast?_cons_cons] at hh
      exact List.mem_cons_of_mem _ (ih hh)

/-- Setting the cdr of the last chain cell to a fresh cell holding the new
item extends the chain by one. -/
theorem chain_snoc {h : Heap} {v : SVal} {xs : List SVal} {ps : List Nat}
    (hc : Chain h v xs ps) :
    ∀ {lp n : Nat} {a : SVal}, ps.Nodup → ps.getLast? = some lp → n ∉ ps →
      heapGet h n = some (a, .nil) →
      ∀ {y : Cell}, heapGet h lp = some y →
      Chain (heapSet h lp (y.1, .ptr n)) v (xs ++ [a]) (ps ++ [n]) := by
  induction hc with
  | nil => intro lp n a _ hlast; cases hlast
  | @cons p x d xs' ps' hget hrest ih =>
    intro lp n a hnd hlast hn hgetn y hy
    cases ps' with
    | nil =>
      -- single-cell chain: the last cell is p itself
      cases hrest
      have hlp : lp = p := by
        simp only [List.getLast?_singleton, Option.some.injEq] at hlast
        omega
      subst hlp
      have hy' : y = (x, .nil) := by
        rw [hy] at hget
        exact Option.some.inj hget
      subst hy'
      have hnp : n ≠ lp := by
        intro hh; exact hn (by simp [hh])
      refine Chain.cons (heapGet_set_self (heapGet_lt hget)) ?_
      refine Chain.cons ?_ .nil
      rw [heapGet_set_ne hnp]
      exact hgetn
    | cons r ps'' =>
      -- the last cell is further along
      have hlast' : (r :: ps'').getLast? = some lp := by
        rw [← List.getLast?_cons_cons (a := p)]
        exact hlast
      have hlp_mem : lp ∈ r :: ps'' := mem_getLast? hlast'
      have hplp : p ≠ lp := by
        intro hh
        exact (List.nodup_cons.mp hnd).1 (hh ▸ hlp_mem)
      have hnn : n ∉ (r :: ps'' : List Nat) := fun hh =>
        hn (List.mem_cons_of_mem _ hh)
      have ihc := ih (List.nodup_cons.mp hnd).2 hlast' hnn hgetn hy
      refine Chain.cons ?_ ihc
      rw [heapGet_set_ne hplp]
      exact hget

/-- insert_queue on a represented queue: appends the item, allocating one
fresh cell, touching only the queue footprint. -/
theorem insert_queue_rep {h : Heap} {q : SVal} {items : List SVal}
    {cells : List Nat} (hq : QueueRep h q items cells) (hnd : cells.Nodup)
    (a : SVal) :
    ∃ h', insert_queue h q a = .ok (h', q) ∧
      QueueRep h' q (items ++ [a]) (cells ++ [h.length]) ∧
      h'.length = h.length + 1 ∧
      (∀ p, p ∉ cells → p < h.length → heapGet h' p = heapGet h p) := by
  obtain ⟨qp, fv, rv, ps, rfl, hget, hc, rfl, hrear⟩ := hq
  have hqp_lt : qp < h.length := heapGet_lt hget
  have hqp_lt1 : qp < (h ++ [(a, SVal.nil)]).length := by
    simp only [List.length_append, List.length_cons, List.length_nil]; omega
  have hget1 : heapGet (h ++ [(a, .nil)]) qp = some (fv, rv) := by
    rw [heapGet_append hqp_lt]; exact hget
  have hgetn : heapGet (h ++ [(a, .nil)]) h.length = some (a, .nil) := heapGet_concat
  have hqpn : qp ≠ h.length := by omega
  cases hc with
  | nil =>
    -- empty queue: set both pointers to the fresh cell
    refine ⟨heapSet (heapSet (h ++ [(a, .nil)]) qp (.ptr h.length, rv)) qp
        (.ptr h.length, .ptr h.length), ?_, ?_, ?_, ?_⟩
    · have hg1 : heapGet (heapSet (h ++ [(a, .nil)]) qp (.ptr h.length, rv)) qp =
          some (.ptr h.length, rv) := heapGet_set_self hqp_lt1
      simp only [insert_queue, cons, empty_queue_p, front_ptr, car, hget1, null,
        set_front_ptr, set_car, set_rear_ptr, set_cdr, hg1]
    · refine ⟨qp, .ptr h.length, .ptr h.length, [h.length], rfl, ?_, ?_, rfl, ?_⟩
      · exact heapGet_set_self (by
          simp only [heapSet, List.length_set]
          exact hqp_lt1)
      · refine Chain.cons ?_ .nil
        rw [heapGet_set_ne (by omega), heapGet_set_ne (by omega)]
        exact hgetn
      · intro _; exact ⟨h.length, rfl, rfl⟩
    · simp [heapSet]
    · intro p hp hplt
      have hpqp : p ≠ qp := by simp at hp; omega
      rw [heapGet_set_ne hpqp, heapGet_set_ne hpqp, heapGet_append hplt]
  | @cons p0 x d xs ps0 hget0 hrest =>
    -- non-empty queue: link after the rear cell and advance the rear pointer
    obtain ⟨lp, hlast, rfl⟩ := hrear (by simp)
    have hlp_mem : lp ∈ p0 :: ps0 := mem_getLast? hlast
    have hqplp : qp ≠ lp := by
      intro hh
      exact (List.nodup_cons.mp hnd).1 (hh ▸ hlp_mem)
    have hlp_lt : lp < h.length := chain_lt (.cons hget0 hrest) lp hlp_mem
    obtain ⟨y, hy⟩ := heapGet_total (h := h ++ [(a, .nil)])
      (p := lp) (by simp only [List.length_append]; omega)
    have hc1 : Chain (h ++ [(a, .nil)]) (.ptr p0) (x :: xs) (p0 :: ps0) :=
      chain_frame (.cons hget0 hrest)
        (fun p hp => heapGet_append (chain_lt (.cons hget0 hrest) p hp))
    have hnmem : h.length ∉ p0 :: ps0 := fun hh =>
      absurd (chain_lt (.cons hget0 hrest) _ hh) (by omega)
    have hc2 : Chain (heapSet (h ++ [(a, .nil)]) lp (y.1, .ptr h.length)) (.ptr p0)
        ((x :: xs) ++ [a]) ((p0 :: ps0) ++ [h.length]) :=
      chain_snoc hc1 (List.nodup_cons.mp hnd).2 hlast hnmem hgetn hy
    have hg2 : heapGet (heapSet (h ++ [(a, .nil)]) lp (y.1, .ptr h.length)) qp =
        some (.ptr p0, .ptr lp) := by
      rw [heapGet_set_ne hqplp]
      exact hget1
    refine ⟨heapSet (heapSet (h ++ [(a, .nil)]) lp (y.1, .ptr h.length)) qp
        (.ptr p0, .ptr h.length), ?_, ?_, ?_, ?_⟩
    · simp only [insert_queue, cons, empty_queue_p, front_ptr, car, hget1, null,
        rear_ptr, cdr, set_cdr, hy, set_rear_ptr, hg2]
    · refine ⟨qp, .ptr p0, .ptr h.length, (p0 :: ps0) ++ [h.length], rfl, ?_, ?_,
        by simp, ?_⟩
      · apply heapGet_set_self
        simp only [heapSet, List.length_set, List.length_append,
          List.length_cons, List.length_nil]
        omega
      · refine chain_frame hc2 ?_
        intro p hp
        have hpqp : p ≠ qp := by
          rcases List.mem_append.mp hp with hp | hp
          · intro hh; exact (List.nodup_cons.mp hnd).1 (hh ▸ hp)
          · simp at hp; omega
        exact heapGet_set_ne hpqp
      · intro _
        exact ⟨h.length, by rw [List.getLast?_concat], rfl⟩
    · simp [heapSet]
    · intro p hp hplt
      have hpqp : p ≠ qp := fun hh => hp (by simp [hh])
      have hplp : p ≠ lp := by
        intro hh
        exact hp (List.mem_cons_of_mem _ (hh ▸ hlp_mem))
      rw [heapGet_set_ne hpqp, heapGet_set_ne hplp, heapGet_append hplt]

/-- delete_queue on a represented non-empty queue: drops the front item,
mutating only the header cell. -/
theorem delete_queue_rep {h : Heap} {q x : SVal} {items : List SVal}
    {cells : List Nat} (hq : QueueRep h q (x :: items) cells)
    (hnd : cells.Nodup) :
    ∃ h' cells', delete_queue h q = .ok (h', q) ∧
      QueueRep h' q items cells' ∧ List.Sublist cells' cells ∧
      h'.length = h.length ∧
      (∀ p, p ∉ cells → heapGet h' p = heapGet h p) := by
  obtain ⟨qp, fv, rv, ps, rfl, hget, hc, rfl, hrear⟩ := hq
  obtain ⟨lp, hlast, rfl⟩ := hrear (by simp)
  cases hc with
  | @cons p0 x' d xs0 ps0 hget0 hrest =>
    have hqp_lt : qp < h.length := heapGet_lt hget
    have hqp_tail : qp ∉ p0 :: ps0 := (List.nodup_cons.mp hnd).1
    refine ⟨heapSet h qp (d, .ptr lp), qp :: ps0, ?_, ?_, ?_, ?_, ?_⟩
    · simp only [delete_queue, empty_queue_p, front_ptr, car, hget, null, cdr,
        hget0, set_front_ptr, set_car]
    · refine ⟨qp, d, .ptr lp, ps0, rfl, heapGet_set_self hqp_lt, ?_, rfl, ?_⟩
      · refine chain_frame hrest ?_
        intro p hp
        exact heapGet_set_ne fun hh =>
          hqp_tail (hh ▸ List.mem_cons_of_mem _ hp)
      · intro hne
        have hps0 : ps0 ≠ [] := by
          intro hh
          cases hh ▸ hrest
          exact hne rfl
        exact ⟨lp, ((getLast?_cons_ne hps0).symm.trans hlast), rfl⟩
    · exact List.Sublist.cons₂ qp (List.sublist_cons_self p0 ps0)
    · simp [heapSet]
    · intro p hp
      exact heapGet_set_ne fun hh => hp (by simp [hh])

/-- empty_queue_p answers exactly the emptiness of the represented items. -/
theorem empty_queue_p_rep {h : Heap} {q : SVal} {items : List SVal}
    {cells : List Nat} (hq : QueueRep h q items cells) :
    empty_queue_p h q = .ok (decide (items = [])) := by
  obtain ⟨qp, fv, rv, ps, rfl, hget, hc, rfl, hrear⟩ := hq
  cases hc with
  | nil => simp [empty_queue_p, front_ptr, car, hget, null]
  | cons hget0 hrest => simp [empty_queue_p, front_ptr, car, hget, null]

/-- front_queue returns the head item of a represented non-empty queue. -/
theorem front_queue_rep {h : Heap} {q x : SVal} {items : List SVal}
    {cells : List Nat} (hq : QueueRep h q (x :: items) cells) :
    front_queue h q = .ok x := by
  obtain ⟨qp, fv, rv, ps, rfl, hget, hc, rfl, hrear⟩ := hq
  cases hc with
  | cons hget0 hrest =>
    simp [front_queue, empty_queue_p, front_ptr, car, hget, null, hget0]

/-- make_new_time_segment allocates three fresh cells holding a represented
singleton segment, leaving the old heap untouched. -/
theorem make_new_time_segment_rep (h : Heap) (t : Nat) (a : SVal) :
    ∃ h' sv, make_new_time_segment h t a = .ok (h', sv) ∧
      SegRep h' sv t [a] [h.length + 2, h.length, h.length + 1] ∧
      h'.length = h.length + 3 ∧
      (∀ p, p < h.length → heapGet h' p = heapGet h p) := by
  have hq0 : QueueRep (h ++ [(.nil, .nil)]) (.ptr h.length) [] [h.length] :=
    ⟨h.length, .nil, .nil, [], rfl, heapGet_concat, .nil, rfl,
      fun hh => absurd rfl hh⟩
  obtain ⟨h2, hins, hq2, hlen2, hframe2⟩ :=
    insert_queue_rep hq0 (List.nodup_singleton _) a
  have hlen1 : (h ++ [((SVal.nil : SVal), (SVal.nil : SVal))]).length =
      h.length + 1 := by simp
  refine ⟨h2 ++ [(.num t, .ptr h.length)], .ptr h2.length, ?_, ?_, ?_, ?_⟩
  · simp only [make_new_time_segment, make_queue, cons, hins,
      make_time_segment]
  · have hcells : ([h.length] ++ [(h ++ [((SVal.nil : SVal), (SVal.nil : SVal))]).length]) =
        [h.length, h.length + 1] := by
      rw [hlen1]
      rfl
    rw [hcells] at hq2
    have hsp : h2.length = h.length + 2 := by rw [hlen2, hlen1]
    refine ⟨h2.length, .ptr h.length, [h.length, h.length + 1], by rw [hsp], heapGet_concat, ?_,
      by rw [hsp], by simp⟩
    refine queueRep_frame hq2 ?_
    intro p hp
    refine heapGet_append ?_
    have := queueRep_lt hq2 p hp
    omega
  · simp only [List.length_append, List.length_cons, List.length_nil]
    rw [hlen2, hlen1]
  · intro p hplt
    rw [heapGet_append (by rw [hlen2, hlen1]; omega)]
    rw [hframe2 p (by simp; omega) (by rw [hlen1]; omega)]
    exact heapGet_append hplt

/-- belongs_before_p on the empty segment list. -/
theorem belongs_before_p_nil {h : Heap} (t : Nat) :
    belongs_before_p h t .nil = .ok true := rfl

/-- belongs_before_p on a represented non-empty segment list compares
against the first segment time. -/
theorem belongs_before_p_rep {h : Heap} {v : SVal} {t0 : Nat}
    {acts : List SVal} {segs : List (Nat × List SVal)} {cells : List Nat}
    (hs : SegsRep h v ((t0, acts) :: segs) cells) (t : Nat) :
    belongs_before_p h t v = .ok (decide (t < t0)) := by
  cases hs with
  | cons hget hseg hrest =>
    obtain ⟨sp, qv, qcells, rfl, hgets, hq, rfl, hne⟩ := hseg
    simp [belongs_before_p, null, car, hget, segment_time, hgets, asNum]

/-- Every time of an abstract insert is the inserted time or an old time. -/
theorem absInsert_fst_subset {t : Nat} {a : SVal} :
    ∀ {segs : List (Nat × List SVal)} {x : Nat},
      x ∈ (absInsert t a segs).map Prod.fst → x = t ∨ x ∈ segs.map Prod.fst := by
  intro segs
  induction segs with
  | nil =>
    intro x hx
    simp [absInsert] at hx
    exact Or.inl hx
  | cons s rest ih =>
    intro x hx
    obtain ⟨t0, q⟩ := s
    by_cases h0 : t0 = t
    · simp only [absInsert, if_pos h0, List.map_cons] at hx
      rcases List.mem_cons.mp hx with rfl | hx
      · exact Or.inr (by simp)
      · exact Or.inr (List.mem_cons_of_mem _ hx)
    · by_cases h1 : t < t0
      · simp only [absInsert, if_neg h0, if_pos h1, List.map_cons] at hx
        rcases List.mem_cons.mp hx with rfl | hx
        · exact Or.inl rfl
        · exact Or.inr hx
      · simp only [absInsert, if_neg h0, if_neg h1, List.map_cons] at hx
        rcases List.mem_cons.mp hx with rfl | hx
        · exact Or.inr (by simp)
        · rcases ih hx with rfl | hx
          · exact Or.inl rfl
          · exact Or.inr (List.mem_cons_of_mem _ hx)

/-- Abstract insertion preserves the strictly increasing time order. -/
theorem absInsert_pairwise {t : Nat} {a : SVal} :
    ∀ {segs : List (Nat × List SVal)},
      (segs.map Prod.fst).Pairwise (· < ·) →
      ((absInsert t a segs).map Prod.fst).Pairwise (· < ·) := by
  intro segs
  induction segs with
  | nil => intro _; simp [absInsert]
  | cons s rest ih =>
    intro hp
    obtain ⟨t0, q⟩ := s
    simp only [List.map_cons, List.pairwise_cons] at hp
    obtain ⟨hlt, hrest⟩ := hp
    by_cases h0 : t0 = t
    · simp only [absInsert, if_pos h0, List.map_cons, List.pairwise_cons]
      exact ⟨hlt, hrest⟩
    · by_cases h1 : t < t0
      · simp only [absInsert, if_neg h0, if_pos h1, List.map_cons,
          List.pairwise_cons]
        refine ⟨?_, hlt, hrest⟩
        intro x hx
        rcases List.mem_cons.mp hx with rfl | hx
        · exact h1
        · exact lt_trans h1 (hlt x hx)
      · simp only [absInsert, if_neg h0, if_neg h1, List.map_cons,
          List.pairwise_cons]
        refine ⟨?_, ih hrest⟩
        intro x hx
        rcases absInsert_fst_subset hx with rfl | hx
        · omega
        · exact hlt x hx


theorem nodup_rebuild {p : Nat} {seg rcells rcells' : List Nat} {m : Nat}
    (hnd : (p :: seg ++ rcells).Nodup)
    (hlt : ∀ z ∈ p :: seg ++ rcells, z < m)
    (hnd' : rcells'.Nodup)
    (hsub : ∀ z ∈ rcells', z ∈ rcells ∨ m ≤ z) :
    (p :: seg ++ rcells').Nodup := by
  simp only [List.cons_append, List.nodup_cons, List.nodup_append,
    List.mem_append, List.disjoint_left] at hnd ⊢
  obtain ⟨hp, hseg, hrc, hdisj⟩ := hnd
  refine ⟨?_, hseg, hnd', ?_⟩
  · intro hh
    rcases hh with hh | hh
    · exact hp (Or.inl hh)
    · rcases hsub _ hh with hh | hh
      · exact hp (Or.inr hh)
      · have := hlt p (by simp)
        omega
  · intro z hz hz'
    rcases hsub _ hz' with hh | hh
    · exact hdisj hz hh
    · have := hlt z (by simp [hz])
      omega

theorem nodup_splice_queue {p sp n : Nat} {qcells rcells : List Nat}
    (hnd : (p :: (sp :: qcells) ++ rcells).Nodup)
    (hlt : ∀ z ∈ p :: (sp :: qcells) ++ rcells, z < n) :
    (p :: (sp :: (qcells ++ [n])) ++ rcells).Nodup := by
  simp only [List.cons_append, List.nodup_cons, List.nodup_append,
    List.mem_append, List.mem_cons, List.mem_singleton, List.disjoint_left,
    List.nodup_singleton] at hnd ⊢
  obtain ⟨hp, hsp, hqnd, hrnd, hdis⟩ := hnd
  have hpn : p < n := hlt p (by simp)
  have hspn : sp < n := hlt sp (by simp)
  have hqn : ∀ z ∈ qcells, z < n := fun z hz => hlt z (by simp [hz])
  have hrn : ∀ z ∈ rcells, z < n := fun z hz => hlt z (by simp [hz])
  refine ⟨?_, ?_, ⟨hqnd, ⟨by simp, List.nodup_nil⟩, ?_⟩, hrnd, ?_⟩
  · intro hh
    rcases hh with hh | hh | hh
    · exact hp (Or.inl hh)
    · rcases hh with hh | hh | hh
      · exact hp (Or.inr (Or.inl hh))
      · omega
      · cases hh
    · exact hp (Or.inr (Or.inr hh))
  · intro hh
    rcases hh with (hh | hh | hh) | hh
    · exact hsp (Or.inl hh)
    · omega
    · cases hh
    · exact hsp (Or.inr hh)
  · intro z hz hh
    rcases hh with hh | hh
    · have := hqn z hz; omega
    · cases hh
  · intro z hz hzr
    rcases hz with hz | hz | hz
    · exact hdis hz hzr
    · subst hz; have := hrn _ hzr; omega
    · cases hz

theorem nodup_splice_seg {p sp : Nat} {n : Nat} {qcells rcells : List Nat}
    (hnd : (p :: (sp :: qcells) ++ rcells).Nodup)
    (hlt : ∀ z ∈ p :: (sp :: qcells) ++ rcells, z < n) :
    (p :: (sp :: qcells) ++ ((n + 3) :: [n + 2, n, n + 1] ++ rcells)).Nodup := by
  simp only [List.cons_append, List.nodup_cons, List.nodup_append,
    List.mem_append, List.mem_cons, List.mem_singleton, List.disjoint_left,
    List.nodup_singleton, List.nodup_nil] at hnd ⊢
  obtain ⟨hp, hsp, hqnd, hrnd, hdis⟩ := hnd
  have hpn : p < n := hlt p (by simp)
  have hspn : sp < n := hlt sp (by simp)
  have hqn : ∀ z ∈ qcells, z < n := fun z hz => hlt z (by simp [hz])
  have hrn : ∀ z ∈ rcells, z < n := fun z hz => hlt z (by simp [hz])
  refine ⟨?_, ?_, hqnd, ⟨?_, ?_, ?_, ?_, trivial, hrnd, ?_⟩, ?_⟩
  · intro hh
    rcases hh with hh | hh | hh | hh | hh | hh | hh | hh
    · exact hp (Or.inl hh)
    · exact hp (Or.inr (Or.inl hh))
    · omega
    · omega
    · omega
    · omega
    · cases hh
    · exact hp (Or.inr (Or.inr hh))
  · intro hh
    rcases hh with hh | hh | hh | hh | hh | hh | hh
    · exact hsp (Or.inl hh)
    · omega
    · omega
    · omega
    · omega
    · cases hh
    · exact hsp (Or.inr hh)
  · intro hh
    rcases hh with hh | hh | hh | hh | hh
    · omega
    · omega
    · omega
    · cases hh
    · have := hrn _ hh; omega
  · intro hh
    rcases hh with hh | hh | hh | hh
    · omega
    · omega
    · cases hh
    · have := hrn _ hh; omega
  · intro hh
    rcases hh with hh | hh | hh
    · omega
    · cases hh
    · have := hrn _ hh; omega
  · intro hh
    rcases hh with hh | hh
    · cases hh
    · have := hrn _ hh; omega
  · intro z hz; cases hz
  · intro z hz hh
    rcases hh with hh | hh | hh | hh | hh | hh
    · have := hqn z hz; omega
    · have := hqn z hz; omega
    · have := hqn z hz; omega
    · have := hqn z hz; omega
    · cases hh
    · exact hdis hz hh


theorem add_to_segments_rep_head {fuel : Nat} {h : Heap} {p sp : Nat}
    {sv restv qv : SVal} {t0 : Nat} {acts0 : List SVal}
    {segs : List (Nat × List SVal)} {qcells rcells : List Nat} (a : SVal)
    (hget : heapGet h p = some (sv, restv)) (hsv : sv = .ptr sp)
    (hgets : heapGet h sp = some (.num t0, qv))
    (hq : QueueRep h qv acts0 qcells)
    (hrest : SegsRep h restv segs rcells)
    (hnd : (p :: (sp :: qcells) ++ rcells).Nodup) :
    ∃ h' scells', add_to_segments t0 a (fuel + 1) h (.ptr p) = .ok h' ∧
      SegsRep h' (.ptr p) ((t0, acts0 ++ [a]) :: segs) scells' ∧
      scells'.Nodup ∧
      h.length ≤ h'.length ∧
      (∀ z, z ∉ p :: (sp :: qcells) ++ rcells → z < h.length →
        heapGet h' z = heapGet h z) ∧
      (∀ z ∈ scells', z ∈ p :: (sp :: qcells) ++ rcells ∨
        (h.length ≤ z ∧ z < h'.length)) := by
  subst hsv
  have hplt : p < h.length := heapGet_lt hget
  have hsplt : sp < h.length := heapGet_lt hgets
  have hndx := hnd
  simp only [List.cons_append, List.nodup_cons, List.nodup_append,
    List.mem_append, List.mem_cons, List.disjoint_left] at hndx
  obtain ⟨hp, hsp, hqnd, hrnd, hdis⟩ := hndx
  have hp_nq : p ∉ qcells := fun hh => hp (Or.inr (Or.inl hh))
  have hsp_nq : sp ∉ qcells := fun hh => hsp (Or.inl hh)
  obtain ⟨h1, hins, hq1, hlen1, hframe1⟩ := insert_queue_rep hq hqnd a
  have hlt : ∀ z ∈ p :: (sp :: qcells) ++ rcells, z < h.length := by
    intro z hz
    simp only [List.cons_append, List.mem_cons, List.mem_append] at hz
    rcases hz with rfl | rfl | hz | hz
    · exact hplt
    · exact hsplt
    · exact queueRep_lt hq z hz
    · exact segsRep_lt hrest z hz
  refine ⟨h1, p :: (sp :: (qcells ++ [h.length])) ++ rcells, ?_, ?_, ?_, ?_, ?_, ?_⟩
  · simp [add_to_segments, car, hget, segment_time, hgets, asNum, segment_queue,
      cdr, hins]
  · refine @SegsRep.cons h1 p (.ptr sp) restv t0 (acts0 ++ [a]) segs
      (sp :: (qcells ++ [h.length])) rcells ?_ ?_ ?_
    · rw [hframe1 p hp_nq hplt]
      exact hget
    · exact ⟨sp, qv, qcells ++ [h.length], rfl,
        by rw [hframe1 sp hsp_nq hsplt]; exact hgets, hq1, rfl, by simp⟩
    · refine segsRep_frame hrest ?_
      intro z hz
      exact hframe1 z (fun hzq => hdis hzq hz) (segsRep_lt hrest z hz)
  · exact nodup_splice_queue hnd hlt
  · omega
  · intro z hz hzlt
    refine hframe1 z ?_ hzlt
    intro hzq
    exact hz (by simp [hzq])
  · intro z hz
    by_cases hzf : z = h.length
    · exact Or.inr ⟨by omega, by omega⟩
    · refine Or.inl ?_
      simp only [List.cons_append, List.mem_cons, List.mem_append,
        List.mem_singleton] at hz ⊢
      tauto


theorem add_to_segments_rep_splice {fuel : Nat} {h : Heap} {p sp : Nat}
    {sv restv qv : SVal} {t0 t : Nat} {acts0 : List SVal}
    {segs : List (Nat × List SVal)} {qcells rcells : List Nat} (a : SVal)
    (hget : heapGet h p = some (sv, restv)) (hsv : sv = .ptr sp)
    (hgets : heapGet h sp = some (.num t0, qv))
    (hq : QueueRep h qv acts0 qcells) (hacts : acts0 ≠ [])
    (hrest : SegsRep h restv segs rcells)
    (hnd : (p :: (sp :: qcells) ++ rcells).Nodup)
    (ht0 : t0 < t)
    (hbb : belongs_before_p h t restv = .ok true) :
    ∃ h' scells', add_to_segments t a (fuel + 1) h (.ptr p) = .ok h' ∧
      SegsRep h' (.ptr p) ((t0, acts0) :: (t, [a]) :: segs) scells' ∧
      scells'.Nodup ∧
      h.length ≤ h'.length ∧
      (∀ z, z ∉ p :: (sp :: qcells) ++ rcells → z < h.length →
        heapGet h' z = heapGet h z) ∧
      (∀ z ∈ scells', z ∈ p :: (sp :: qcells) ++ rcells ∨
        (h.length ≤ z ∧ z < h'.length)) := by
  subst hsv
  have hplt : p < h.length := heapGet_lt hget
  have hsplt : sp < h.length := heapGet_lt hgets
  have hndx := hnd
  simp only [List.cons_append, List.nodup_cons, List.nodup_append,
    List.mem_append, List.mem_cons, List.disjoint_left] at hndx
  obtain ⟨hp, hsp, hqnd, hrnd, hdis⟩ := hndx
  have hlt : ∀ z ∈ p :: (sp :: qcells) ++ rcells, z < h.length := by
    intro z hz
    simp only [List.cons_append, List.mem_cons, List.mem_append] at hz
    rcases hz with rfl | rfl | hz | hz
    · exact hplt
    · exact hsplt
    · exact queueRep_lt hq z hz
    · exact segsRep_lt hrest z hz
  obtain ⟨h1, ns, hmk, hsegns, hlen1, hframe1⟩ := make_new_time_segment_rep h t a
  have hne : ¬ (t0 = t) := by omega
  have hget1p : heapGet h1 p = some (.ptr sp, restv) := by
    rw [hframe1 p hplt]
    exact hget
  have hget2p : heapGet (h1 ++ [(ns, restv)]) p = some (.ptr sp, restv) := by
    rw [heapGet_append (by omega)]
    exact hget1p
  have hplt2 : p < (h1 ++ [(ns, restv)]).length := by
    simp only [List.length_append, List.length_cons, List.length_nil]
    omega
  refine ⟨heapSet (h1 ++ [(ns, restv)]) p (.ptr sp, .ptr h1.length),
    p :: (sp :: qcells) ++
      (h1.length :: ([h.length + 2, h.length, h.length + 1] ++ rcells)),
    ?_, ?_, ?_, ?_, ?_, ?_⟩
  · simp [add_to_segments, car, hget, segment_time, hgets, asNum, hne, cdr,
      hbb, hmk, hget1p, cons, set_cdr, hget2p]
  · refine @SegsRep.cons _ p (.ptr sp) (.ptr h1.length) t0 acts0
      ((t, [a]) :: segs) (sp :: qcells)
      (h1.length :: ([h.length + 2, h.length, h.length + 1] ++ rcells)) ?_ ?_ ?_
    · exact heapGet_set_self hplt2
    · refine segRep_frame ⟨sp, qv, qcells, rfl, hgets, hq, rfl, hacts⟩ ?_
      intro z hz
      have hzlt : z < h.length := by
        rcases List.mem_cons.mp hz with rfl | hz'
        · exact hsplt
        · exact queueRep_lt hq z hz'
      have hzp : z ≠ p := by
        rcases List.mem_cons.mp hz with rfl | hz'
        · intro hh; exact hp (Or.inl hh.symm)
        · intro hh; exact hp (Or.inr (Or.inl (hh ▸ hz')))
      rw [heapGet_set_ne hzp, heapGet_append (by omega), hframe1 z hzlt]
    · refine @SegsRep.cons _ h1.length ns restv t [a] segs
        [h.length + 2, h.length, h.length + 1] rcells ?_ ?_ ?_
      · rw [heapGet_set_ne (by omega)]
        exact heapGet_concat
      · refine segRep_frame hsegns ?_
        intro z hz
        have hzge : h.length ≤ z ∧ z < h1.length := by
          have := segRep_lt hsegns z hz
          simp only [List.mem_cons, List.not_mem_nil, or_false] at hz
          rcases hz with rfl | rfl | rfl <;> omega
        rw [heapGet_set_ne (by omega), heapGet_append (by omega)]
      · refine segsRep_frame hrest ?_
        intro z hz
        have hzlt : z < h.length := segsRep_lt hrest z hz
        have hzp : z ≠ p := by
          intro hh
          exact hp (Or.inr (Or.inr (hh ▸ hz)))
        rw [heapGet_set_ne hzp, heapGet_append (by omega), hframe1 z hzlt]
  · have hnodup := nodup_splice_seg hnd hlt
    rw [show h1.length = h.length + 3 from hlen1]
    exact hnodup
  · simp only [heapSet, List.length_set, List.length_append, List.length_cons,
      List.length_nil]
    omega
  · intro z hz hzlt
    have hzp : z ≠ p := fun hh => hz (by simp [hh])
    rw [heapGet_set_ne hzp, heapGet_append (by omega), hframe1 z hzlt]
  · intro z hz
    have hlen3 : (heapSet (h1 ++ [(ns, restv)]) p
        (SVal.ptr sp, SVal.ptr h1.length)).length = h.length + 4 := by
      simp only [heapSet, List.length_set, List.length_append, List.length_cons,
        List.length_nil]
      omega
    have hzcases : z = p ∨ z = sp ∨ z ∈ qcells ∨ z = h1.length ∨
        z = h.length + 2 ∨ z = h.length ∨ z = h.length + 1 ∨ z ∈ rcells := by
      simp only [List.cons_append, List.mem_cons, List.mem_append,
        List.not_mem_nil, or_false] at hz
      tauto
    rcases hzcases with rfl | rfl | hzz | rfl | rfl | rfl | rfl | hzz
    · exact Or.inl (by simp)
    · exact Or.inl (by simp)
    · exact Or.inl (by simp [hzz])
    · exact Or.inr ⟨by omega, by omega⟩
    · exact Or.inr ⟨by omega, by omega⟩
    · exact Or.inr ⟨by omega, by omega⟩
    · exact Or.inr ⟨by omega, by omega⟩
    · exact Or.inl (by simp [hzz])


theorem add_to_segments_rep :
    ∀ (segs : List (Nat × List SVal)) (t0 : Nat) (acts0 : List SVal)
      (fuel : Nat) (h : Heap) (v : SVal) (scells : List Nat) (t : Nat) (a : SVal),
      SegsRep h v ((t0, acts0) :: segs) scells → scells.Nodup →
      t0 ≤ t → segs.length < fuel →
      ∃ h' scells', add_to_segments t a fuel h v = .ok h' ∧
        SegsRep h' v (absInsert t a ((t0, acts0) :: segs)) scells' ∧
        scells'.Nodup ∧
        h.length ≤ h'.length ∧
        (∀ z, z ∉ scells → z < h.length → heapGet h' z = heapGet h z) ∧
        (∀ z ∈ scells', z ∈ scells ∨ (h.length ≤ z ∧ z < h'.length)) := by
  intro segs
  induction segs with
  | nil =>
    intro t0 acts0 fuel h v scells t a hs hnd ht0 hfuel
    obtain ⟨fuel, rfl⟩ : ∃ f, fuel = f + 1 := ⟨fuel - 1, by omega⟩
    cases hs with
    | @cons p sv restv _ _ _ scellsSeg rcells hget hseg hrest =>
      obtain ⟨sp, qv, qcells, rfl, hgets, hq, rfl, hacts⟩ := hseg
      cases hrest
      by_cases h0 : t0 = t
      · subst h0
        have habs : absInsert t0 a ((t0, acts0) :: ([] : List (Nat × List SVal))) =
            (t0, acts0 ++ [a]) :: [] := by simp [absInsert]
        rw [habs]
        exact add_to_segments_rep_head a hget rfl hgets hq SegsRep.nil hnd
      · have habs : absInsert t a ((t0, acts0) :: ([] : List (Nat × List SVal))) =
            (t0, acts0) :: (t, [a]) :: [] := by
          simp only [absInsert, if_neg h0, if_neg (by omega : ¬ t < t0)]
        rw [habs]
        exact add_to_segments_rep_splice a hget rfl hgets hq hacts SegsRep.nil hnd
          (by omega) (belongs_before_p_nil t)
  | cons s1 rest ih =>
    intro t0 acts0 fuel h v scells t a hs hnd ht0 hfuel
    obtain ⟨t1, acts1⟩ := s1
    obtain ⟨fuel, rfl⟩ : ∃ f, fuel = f + 1 := ⟨fuel - 1, by omega⟩
    cases hs with
    | @cons p sv restv _ _ _ scellsSeg rcells hget hseg hrest =>
      obtain ⟨sp, qv, qcells, rfl, hgets, hq, rfl, hacts⟩ := hseg
      by_cases h0 : t0 = t
      · subst h0
        have habs : absInsert t0 a ((t0, acts0) :: (t1, acts1) :: rest) =
            (t0, acts0 ++ [a]) :: (t1, acts1) :: rest := by simp [absInsert]
        rw [habs]
        exact add_to_segments_rep_head a hget rfl hgets hq hrest hnd
      · by_cases h1 : t < t1
        · have habs : absInsert t a ((t0, acts0) :: (t1, acts1) :: rest) =
              (t0, acts0) :: (t, [a]) :: (t1, acts1) :: rest := by
            simp only [absInsert, if_neg h0, if_neg (by omega : ¬ t < t0),
              if_neg (by omega : ¬ t1 = t), if_pos h1]
          rw [habs]
          have hbb : belongs_before_p h t restv = .ok true := by
            rw [belongs_before_p_rep hrest t]
            simp [h1]
          exact add_to_segments_rep_splice a hget rfl hgets hq hacts hrest hnd
            (by omega) hbb
        · -- recurse past the first segment
          have ht1 : t1 ≤ t := by omega
          have habs : absInsert t a ((t0, acts0) :: (t1, acts1) :: rest) =
              (t0, acts0) :: absInsert t a ((t1, acts1) :: rest) := by
            simp only [absInsert, if_neg h0, if_neg (by omega : ¬ t < t0)]
          have hbb : belongs_before_p h t restv = .ok false := by
            rw [belongs_before_p_rep hrest t]
            simp [h1]
          have hplt : p < h.length := heapGet_lt hget
          have hsplt : sp < h.length := heapGet_lt hgets
          have hndx := hnd
          simp only [List.cons_append, List.nodup_cons, List.nodup_append,
            List.mem_append, List.mem_cons, List.disjoint_left] at hndx
          obtain ⟨hp, hsp, hqnd, hrnd, hdis⟩ := hndx
          obtain ⟨h', rcells', heq, hsegs', hnd', hlen', hframe', hfresh'⟩ :=
            ih t1 acts1 fuel h restv rcells t a hrest hrnd ht1 (by
              simp only [List.length_cons] at hfuel
              omega)
          refine ⟨h', p :: (sp :: qcells) ++ rcells', ?_, ?_, ?_, ?_, ?_, ?_⟩
          · simp [add_to_segments, car, hget, segment_time, hgets, asNum, h0,
              cdr, hbb, heq]
          · rw [habs]
            refine @SegsRep.cons _ p (.ptr sp) restv t0 acts0
              (absInsert t a ((t1, acts1) :: rest)) (sp :: qcells) rcells' ?_ ?_ ?_
            · rw [hframe' p (fun hh => hp (Or.inr (Or.inr hh))) hplt]
              exact hget
            · refine segRep_frame ⟨sp, qv, qcells, rfl, hgets, hq, rfl, hacts⟩ ?_
              intro z hz
              have hznr : z ∉ rcells := by
                rcases List.mem_cons.mp hz with rfl | hz'
                · exact fun hh => hsp (Or.inr hh)
                · exact hdis hz'
              have hzlt : z < h.length := by
                rcases List.mem_cons.mp hz with rfl | hz'
                · exact hsplt
                · exact queueRep_lt hq z hz'
              exact hframe' z hznr hzlt
            · exact hsegs'
          · refine nodup_rebuild hnd (segsRep_lt (SegsRep.cons hget
              ⟨sp, qv, qcells, rfl, hgets, hq, rfl, hacts⟩ hrest)) hnd' ?_
            intro z hz
            rcases hfresh' z hz with hh | hh
            · exact Or.inl hh
            · exact Or.inr hh.1
          · omega
          · intro z hz hzlt
            refine hframe' z ?_ hzlt
            intro hzr
            exact hz (by simp [hzr])
          · intro z hz
            simp only [List.cons_append, List.mem_cons, List.mem_append] at hz
            rcases hz with rfl | rfl | hz | hz
            · exact Or.inl (by simp)
            · exact Or.inl (by simp)
            · exact Or.inl (by simp [hz])
            · rcases hfresh' z hz with hh | hh
              · exact Or.inl (by simp [hh])
              · exact Or.inr hh


theorem nodup_lt_length {l : List Nat} {n : Nat} (hnd : l.Nodup)
    (hlt : ∀ z ∈ l, z < n) : l.length ≤ n := by
  have hsub : l ⊆ List.range n := fun z hz => List.mem_range.mpr (hlt z hz)
  simpa using (hnd.subperm hsub).length_le

theorem segsRep_count_le {h : Heap} {v : SVal} {segs : List (Nat × List SVal)}
    {scells : List Nat} (hs : SegsRep h v segs scells) :
    segs.length ≤ scells.length := by
  induction hs with
  | nil => simp
  | cons _ _ _ ih =>
    simp only [List.length_cons, List.length_append]
    omega

theorem nodup_front_splice {ap n : Nat} {scells : List Nat}
    (hnd : (ap :: scells).Nodup) (hlt : ∀ z ∈ ap :: scells, z < n) :
    (ap :: (n + 3) :: [n + 2, n, n + 1] ++ scells).Nodup := by
  simp only [List.cons_append, List.nodup_cons, List.mem_cons, List.mem_append,
    List.nodup_append, List.mem_singleton, List.not_mem_nil, or_false,
    List.nodup_nil, List.disjoint_left] at hnd ⊢
  obtain ⟨hap, hsnd⟩ := hnd
  have hapn : ap < n := hlt ap (by simp)
  have hsn : ∀ z ∈ scells, z < n := fun z hz => hlt z (by simp [hz])
  refine ⟨?_, ?_, ?_, ?_, ?_, trivial, hsnd, by intro z hf; cases hf⟩
  · intro hh
    rcases hh with hh | hh | hh | hh | hh | hh
    · omega
    · omega
    · omega
    · omega
    · exact hh
    · exact hap hh
  · intro hh
    rcases hh with hh | hh | hh | hh | hh
    · omega
    · omega
    · omega
    · exact hh
    · have := hsn _ hh; omega
  · intro hh
    rcases hh with hh | hh | hh | hh
    · omega
    · omega
    · exact hh
    · have := hsn _ hh; omega
  · intro hh
    rcases hh with hh | hh | hh
    · omega
    · exact hh
    · have := hsn _ hh; omega
  · intro hh
    rcases hh with hh | hh
    · exact hh
    · have := hsn _ hh; omega


theorem add_to_agenda_rep {h : Heap} {agenda : SVal} {ct : Nat}
    {segs : List (Nat × List SVal)} {cells : List Nat}
    (har : AgendaRep h agenda ct segs cells) (t : Nat) (a : SVal) :
    ∃ h' cells', add_to_agenda t a h agenda = .ok h' ∧
      AgendaRep h' agenda ct (absInsert t a segs) cells' ∧
      h.length ≤ h'.length ∧
      (∀ z, z ∉ cells → z < h.length → heapGet h' z = heapGet h z) ∧
      (∀ z ∈ cells', z ∈ cells ∨ (h.length ≤ z ∧ z < h'.length)) := by
  obtain ⟨ap, sv, scells, rfl, hgeta, hsegs, rfl, hnd, hsorted⟩ := har
  have haplt : ap < h.length := heapGet_lt hgeta
  have hndx := hnd
  simp only [List.nodup_cons] at hndx
  obtain ⟨hap_ns, hsnd⟩ := hndx
  have hslt : ∀ z ∈ scells, z < h.length := segsRep_lt hsegs
  have hsorted' := absInsert_pairwise (t := t) (a := a) hsorted
  have hsplice : belongs_before_p h t sv = .ok true →
      absInsert t a segs = (t, [a]) :: segs →
      ∃ h' cells', add_to_agenda t a h (.ptr ap) = .ok h' ∧
        AgendaRep h' (.ptr ap) ct (absInsert t a segs) cells' ∧
        h.length ≤ h'.length ∧
        (∀ z, z ∉ ap :: scells → z < h.length → heapGet h' z = heapGet h z) ∧
        (∀ z ∈ cells', z ∈ ap :: scells ∨ (h.length ≤ z ∧ z < h'.length)) := by
    intro hbb habs
    obtain ⟨h1, ns, hmk, hsegns, hlen1, hframe1⟩ := make_new_time_segment_rep h t a
    have hget2ap : heapGet (h1 ++ [(ns, sv)]) ap = some (.num ct, sv) := by
      rw [heapGet_append (by omega), hframe1 ap haplt]
      exact hgeta
    have haplt2 : ap < (h1 ++ [(ns, sv)]).length := by
      simp only [List.length_append, List.length_cons, List.length_nil]
      omega
    have hlen3 : (heapSet (h1 ++ [(ns, sv)]) ap
        (SVal.num ct, SVal.ptr h1.length)).length = h.length + 4 := by
      simp only [heapSet, List.length_set, List.length_append, List.length_cons,
        List.length_nil]
      omega
    refine ⟨heapSet (h1 ++ [(ns, sv)]) ap (.num ct, .ptr h1.length),
      ap :: (h1.length :: ([h.length + 2, h.length, h.length + 1] ++ scells)),
      ?_, ?_, ?_, ?_, ?_⟩
    · simp [add_to_agenda, segments, cdr, hgeta, hbb, hmk, cons, set_segments,
        set_cdr, hget2ap]
    · refine ⟨ap, .ptr h1.length,
        h1.length :: ([h.length + 2, h.length, h.length + 1] ++ scells), rfl,
        heapGet_set_self haplt2, ?_, rfl, ?_, hsorted'⟩
      · rw [habs]
        refine @SegsRep.cons _ h1.length ns sv t [a] segs
          [h.length + 2, h.length, h.length + 1] scells ?_ ?_ ?_
        · rw [heapGet_set_ne (by omega)]
          exact heapGet_concat
        · refine segRep_frame hsegns ?_
          intro z hz
          have hzge : h.length ≤ z ∧ z < h1.length := by
            have := segRep_lt hsegns z hz
            simp only [List.mem_cons, List.not_mem_nil, or_false] at hz
            rcases hz with rfl | rfl | rfl <;> omega
          rw [heapGet_set_ne (by omega), heapGet_append (by omega)]
        · refine segsRep_frame hsegs ?_
          intro z hz
          have hzlt : z < h.length := hslt z hz
          have hzap : z ≠ ap := fun hh => hap_ns (hh ▸ hz)
          rw [heapGet_set_ne hzap, heapGet_append (by omega), hframe1 z hzlt]
      · have hnodup := nodup_front_splice hnd (by
          intro z hz
          rcases List.mem_cons.mp hz with rfl | hz'
          · exact haplt
          · exact hslt z hz')
        rw [show h1.length = h.length + 3 from hlen1]
        exact hnodup
    · omega
    · intro z hz hzlt
      have hzap : z ≠ ap := fun hh => hz (by simp [hh])
      rw [heapGet_set_ne hzap, heapGet_append (by omega), hframe1 z hzlt]
    · intro z hz
      have hzcases : z = ap ∨ z = h1.length ∨ z = h.length + 2 ∨ z = h.length ∨
          z = h.length + 1 ∨ z ∈ scells := by
        simp only [List.cons_append, List.mem_cons, List.mem_append,
          List.not_mem_nil, or_false] at hz
        tauto
      rcases hzcases with rfl | rfl | rfl | rfl | rfl | hzz
      · exact Or.inl (by simp)
      · exact Or.inr ⟨by omega, by omega⟩
      · exact Or.inr ⟨by omega, by omega⟩
      · exact Or.inr ⟨by omega, by omega⟩
      · exact Or.inr ⟨by omega, by omega⟩
      · exact Or.inl (by simp [hzz])
  cases hsegs with
  | nil =>
    exact hsplice (belongs_before_p_nil t) (by simp [absInsert])
  | @cons p sv0 restv t0 acts0 segs0 scellsSeg rcells hget hseg hrest =>
    by_cases h1 : t < t0
    · refine hsplice ?_ ?_
      · rw [belongs_before_p_rep (SegsRep.cons hget hseg hrest) t]
        simp [h1]
      · obtain ⟨sp, qv, qcells, rfl, hgets, hq, rfl, hacts⟩ := hseg
        simp only [absInsert, if_neg (by omega : ¬ t0 = t), if_pos h1]
    · have hbbf : belongs_before_p h t (.ptr p) = .ok false := by
        rw [belongs_before_p_rep (SegsRep.cons hget hseg hrest) t]
        simp [h1]
      have hcount : segs0.length < h.length + 1 := by
        have h1c := segsRep_count_le (SegsRep.cons hget hseg hrest)
        have h2c := nodup_lt_length hsnd hslt
        simp only [List.length_cons] at h1c
        omega
      obtain ⟨h', scells', heq, hsegs', hnd', hlen', hframe', hfresh'⟩ :=
        add_to_segments_rep segs0 t0 acts0 (h.length + 1) h (.ptr p)
          (p :: scellsSeg ++ rcells) t a (SegsRep.cons hget hseg hrest) hsnd
          (by omega) hcount
      refine ⟨h', ap :: scells', ?_, ?_, ?_, ?_, ?_⟩
      · simp [add_to_agenda, segments, cdr, hgeta, hbbf, heq]
      · refine ⟨ap, .ptr p, scells', rfl, ?_, hsegs', rfl, ?_, hsorted'⟩
        · rw [hframe' ap (fun hh => hap_ns hh) haplt]
          exact hgeta
        · refine @nodup_rebuild ap [] (p :: scellsSeg ++ rcells) scells' h.length hnd ?_ hnd' ?_
          · intro z hz
            rcases List.mem_cons.mp hz with rfl | hz'
            · exact haplt
            · exact hslt z hz'
          · intro z hz
            rcases hfresh' z hz with hh | hh
            · exact Or.inl hh
            · exact Or.inr hh.1
      · omega
      · intro z hz hzlt
        refine hframe' z ?_ hzlt
        intro hzs
        exact hz (List.mem_cons_of_mem _ hzs)
      · intro z hz
        rcases List.mem_cons.mp hz with rfl | hz'
        · exact Or.inl (by simp)
        · rcases hfresh' z hz' with hh | hh
          · exact Or.inl (List.mem_cons_of_mem _ hh)
          · exact Or.inr hh


theorem first_agenda_item_rep {h : Heap} {agenda : SVal} {ct t : Nat}
    {acts : List SVal} {rest : List (Nat × List SVal)} {cells : List Nat}
    (har : AgendaRep h agenda ct ((t, acts) :: rest) cells) :
    ∃ h' a acts', acts = a :: acts' ∧
      first_agenda_item h agenda = .ok (h', a) ∧
      AgendaRep h' agenda t ((t, acts) :: rest) cells ∧
      h'.length = h.length ∧
      (∀ z, z ∉ cells → heapGet h' z = heapGet h z) := by
  obtain ⟨ap, sv, scells, rfl, hgeta, hsegs, rfl, hnd, hsorted⟩ := har
  have haplt : ap < h.length := heapGet_lt hgeta
  have hndx := hnd
  simp only [List.nodup_cons] at hndx
  obtain ⟨hap_ns, hsnd⟩ := hndx
  cases hsegs with
  | @cons p sv0 restv _ _ _ scellsSeg rcells hget hseg hrest =>
    obtain ⟨sp, qv, qcells, rfl, hgets, hq, rfl, hacts⟩ := hseg
    obtain ⟨a, acts', rfl⟩ : ∃ a acts', acts = a :: acts' := by
      cases acts with
      | nil => exact absurd rfl hacts
      | cons a acts' => exact ⟨a, acts', rfl⟩
    have hap_p : ap ≠ p := fun hh => hap_ns (by simp [hh])
    have hap_sp : ap ≠ sp := fun hh => hap_ns (by simp [hh])
    have hap_q : ap ∉ qcells := fun hh => hap_ns (by simp [hh])
    have hap_r : ap ∉ rcells := fun hh => hap_ns (by simp [hh])
    have hget1sp : heapGet (heapSet h ap (.num t, .ptr p)) sp =
        some (.num t, qv) := by
      rw [heapGet_set_ne (Ne.symm hap_sp)]
      exact hgets
    have hq1 : QueueRep (heapSet h ap (.num t, .ptr p)) qv (a :: acts') qcells := by
      refine queueRep_frame hq ?_
      intro z hz
      exact heapGet_set_ne fun hh => hap_q (hh ▸ hz)
    refine ⟨heapSet h ap (.num t, .ptr p), a, acts', rfl, ?_, ?_, by simp [heapSet], ?_⟩
    · simp [first_agenda_item, empty_agenda_p, segments, cdr, hgeta, null,
        first_segment, car, hget, segment_time, hgets, set_current_time,
        set_car, segment_queue, hget1sp, front_queue_rep hq1]
    · refine ⟨ap, .ptr p, p :: (sp :: qcells) ++ rcells, rfl,
        heapGet_set_self haplt, ?_, rfl, hnd, hsorted⟩
      refine @SegsRep.cons _ p (.ptr sp) restv t (a :: acts') rest
        (sp :: qcells) rcells ?_ ?_ ?_
      · rw [heapGet_set_ne (Ne.symm hap_p)]
        exact hget
      · exact ⟨sp, qv, qcells, rfl, hget1sp, hq1, rfl, hacts⟩
      · refine segsRep_frame hrest ?_
        intro z hz
        exact heapGet_set_ne fun hh => hap_r (hh ▸ hz)
    · intro z hz
      exact heapGet_set_ne fun hh => hz (by simp [hh])

theorem remove_first_agenda_item_rep {h : Heap} {agenda : SVal} {ct t : Nat}
    {a : SVal} {acts : List SVal} {rest : List (Nat × List SVal)}
    {cells : List Nat}
    (har : AgendaRep h agenda ct ((t, a :: acts) :: rest) cells) :
    ∃ h' cells', remove_first_agenda_item h agenda = .ok h' ∧
      AgendaRep h' agenda ct
        (if acts = [] then rest else (t, acts) :: rest) cells' ∧
      h'.length = h.length ∧
      (∀ z, z ∉ cells → heapGet h' z = heapGet h z) := by
  obtain ⟨ap, sv, scells, rfl, hgeta, hsegs, rfl, hnd, hsorted⟩ := har
  have haplt : ap < h.length := heapGet_lt hgeta
  have hndx := hnd
  simp only [List.nodup_cons] at hndx
  obtain ⟨hap_ns, hsnd⟩ := hndx
  cases hsegs with
  | @cons p sv0 restv _ _ _ scellsSeg rcells hget hseg hrest =>
    obtain ⟨sp, qv, qcells, rfl, hgets, hq, rfl, hacts⟩ := hseg
    have hsndx := hsnd
    simp only [List.cons_append, List.nodup_cons, List.nodup_append,
      List.mem_append, List.mem_cons, List.disjoint_left] at hsndx
    obtain ⟨hpx, hspx, hqnd, hrnd, hdis⟩ := hsndx
    have hap_p : ap ≠ p := fun hh => hap_ns (by simp [hh])
    have hap_sp : ap ≠ sp := fun hh => hap_ns (by simp [hh])
    have hap_q : ap ∉ qcells := fun hh => hap_ns (by simp [hh])
    have hap_r : ap ∉ rcells := fun hh => hap_ns (by simp [hh])
    obtain ⟨h1, cells1, hdel, hq1, hsub1, hlen1, hframe1⟩ :=
      delete_queue_rep hq hqnd
    have hqc_sub : ∀ z ∈ cells1, z ∈ qcells := fun z hz => hsub1.mem hz
    have hframe1' : ∀ z, z ∉ qcells → heapGet h1 z = heapGet h z := hframe1
    have hget1a : heapGet h1 ap = some (.num ct, .ptr p) := by
      rw [hframe1' ap hap_q]
      exact hgeta
    have hget1p : heapGet h1 p = some (.ptr sp, restv) := by
      rw [hframe1' p (fun hh => hpx (Or.inr (Or.inl hh)))]
      exact hget
    have hget1sp : heapGet h1 sp = some (.num t, qv) := by
      rw [hframe1' sp (fun hh => hspx (Or.inl hh))]
      exact hgets
    have hemp1 : empty_queue_p h1 qv = .ok (decide (acts = [])) :=
      empty_queue_p_rep hq1
    cases acts with
    | nil =>
      -- the queue drained: drop the first segment
      refine ⟨heapSet h1 ap (.num ct, restv), ap :: rcells, ?_, ?_, ?_, ?_⟩
      · simp [remove_first_agenda_item, first_segment, segments, cdr, hget1a,
          hgeta, car, hget, segment_queue, hgets, hdel, hemp1, rest_segments,
          hget1p, set_segments, set_cdr]
      · refine ⟨ap, restv, rcells, rfl, ?_, ?_, rfl, ?_, ?_⟩
        · exact heapGet_set_self (by omega)
        · refine segsRep_frame hrest ?_
          intro z hz
          rw [heapGet_set_ne (fun hh => hap_r (by rw [← hh]; exact hz))]
          exact hframe1' z (fun hh => hdis hh hz)
        · refine List.Nodup.sublist ?_ hnd
          refine List.Sublist.cons₂ ap ?_
          exact List.sublist_append_right _ rcells
        · simp only [List.map_cons, List.pairwise_cons] at hsorted
          exact hsorted.2
      · simp [heapSet, hlen1]
      · intro z hz
        rw [heapGet_set_ne fun hh => hz (by simp [hh])]
        exact hframe1' z (fun hh => hz (by simp [hh]))
    | cons a2 acts' =>
      -- the queue still holds items: keep the segment
      refine ⟨h1, ap :: (p :: (sp :: cells1) ++ rcells), ?_, ?_, hlen1, ?_⟩
      · simp [remove_first_agenda_item, first_segment, segments, cdr, hgeta,
          car, hget, segment_queue, hgets, hdel, hemp1]
      · refine ⟨ap, .ptr p, p :: (sp :: cells1) ++ rcells, rfl, hget1a, ?_,
          rfl, ?_, hsorted⟩
        · refine @SegsRep.cons _ p (.ptr sp) restv t (a2 :: acts') rest
            (sp :: cells1) rcells hget1p ?_ ?_
          · exact ⟨sp, qv, cells1, rfl, hget1sp, hq1, rfl, by simp⟩
          · refine segsRep_frame hrest ?_
            intro z hz
            exact hframe1' z (fun hh => hdis hh hz)
        · refine List.Nodup.sublist ?_ hnd
          refine List.Sublist.cons₂ ap ?_
          refine List.Sublist.cons₂ p ?_
          refine List.Sublist.cons₂ sp ?_
          exact List.Sublist.append_right hsub1 rcells
      · intro z hz
        exact hframe1' z (fun hh => hz (by simp [hh]))


theorem countSegs_cons (t : Nat) (acts : List SVal)
    (rest : List (Nat × List SVal)) :
    countSegs ((t, acts) :: rest) = acts.length + countSegs rest := by
  simp [countSegs, flattenSegs]

theorem drainAgenda_rep :
    ∀ (fuel : Nat) (segs : List (Nat × List SVal)) (h : Heap)
      (agenda : SVal) (ct : Nat) (cells : List Nat),
      AgendaRep h agenda ct segs cells → countSegs segs < fuel →
      drainAgenda fuel h agenda = .ok (flattenSegs segs) := by
  intro fuel
  induction fuel with
  | zero => intro segs h agenda ct cells _ hcount; omega
  | succ fuel ih =>
    intro segs h agenda ct cells har hcount
    cases segs with
    | nil =>
      obtain ⟨ap, sv, scells, rfl, hgeta, hsegs, rfl, hnd, hsorted⟩ := har
      cases hsegs
      simp [drainAgenda, empty_agenda_p, segments, cdr, hgeta, null,
        flattenSegs]
    | cons s rest =>
      obtain ⟨t, acts⟩ := s
      have har' := har
      obtain ⟨ap, sv, scells, rfl, hgeta, hsegs, rfl, hnd, hsorted⟩ := har'
      have hemp : empty_agenda_p h (.ptr ap) = .ok false := by
        cases hsegs with
        | cons hget hseg hrest =>
          simp [empty_agenda_p, segments, cdr, hgeta, null]
      obtain ⟨h1, a, acts', rfl, hfirst, har1, hlen1, hframe1⟩ :=
        first_agenda_item_rep har
      have hct1 : current_time h1 (.ptr ap) = .ok (.num t) := by
        obtain ⟨ap2, sv2, scells2, heq2, hgeta2, _, _, _, _⟩ := har1
        obtain rfl : ap = ap2 := SVal.ptr.inj heq2
        simp [current_time, car, hgeta2]
      obtain ⟨h2, cells2, hrem, har2, hlen2, hframe2⟩ :=
        remove_first_agenda_item_rep har1
      have hcount2 :
          countSegs (if acts' = [] then rest else (t, acts') :: rest) < fuel := by
        by_cases hacts' : acts' = []
        · subst hacts'
          have hone : (if ([] : List SVal) = [] then rest
              else (t, ([] : List SVal)) :: rest) = rest := if_pos rfl
          rw [hone]
          rw [countSegs_cons] at hcount
          simp only [List.length_cons, List.length_nil] at hcount
          omega
        · rw [if_neg hacts']
          rw [countSegs_cons] at hcount ⊢
          simp only [List.length_cons] at hcount
          omega
      have hrec := ih _ h2 (.ptr ap) t cells2 har2 hcount2
      have hflat : (t, a) ::
          flattenSegs (if acts' = [] then rest else (t, acts') :: rest) =
          flattenSegs ((t, a :: acts') :: rest) := by
        by_cases hacts' : acts' = []
        · subst hacts'
          simp [flattenSegs]
        · rw [if_neg hacts']
          simp [flattenSegs]
      rw [← hflat]
      simp only [drainAgenda, hemp, hfirst, hct1, asNum, hrem, hrec]


theorem foldAdds_rep :
    ∀ (adds : List (Nat × SVal)) (h : Heap) (agenda : SVal) (ct : Nat)
      (segs : List (Nat × List SVal)) (cells : List Nat),
      AgendaRep h agenda ct segs cells →
      ∃ h' cells',
        adds.foldlM (fun hh ta => add_to_agenda ta.1 ta.2 hh agenda) h =
          .ok h' ∧
        AgendaRep h' agenda ct
          (adds.foldl (fun s ta => absInsert ta.1 ta.2 s) segs) cells' := by
  intro adds
  induction adds with
  | nil =>
    intro h agenda ct segs cells har
    exact ⟨h, cells, rfl, har⟩
  | cons ta rest ih =>
    intro h agenda ct segs cells har
    obtain ⟨h1, cells1, heq1, har1, _, _, _⟩ := add_to_agenda_rep har ta.1 ta.2
    obtain ⟨h', cells', heq', har'⟩ := ih h1 agenda ct _ cells1 har1
    refine ⟨h', cells', ?_, har'⟩
    rw [List.foldlM_cons, heq1]
    simpa [Except.bind] using heq'

theorem countSegs_absInsert (t : Nat) (a : SVal) :
    ∀ (segs : List (Nat × List SVal)),
      countSegs (absInsert t a segs) = countSegs segs + 1 := by
  intro segs
  induction segs with
  | nil => simp [countSegs, absInsert, flattenSegs]
  | cons s rest ih =>
    obtain ⟨t0, q⟩ := s
    by_cases h0 : t0 = t
    · simp only [absInsert, if_pos h0]
      rw [countSegs_cons, countSegs_cons]
      simp only [List.length_append, List.length_cons, List.length_nil]
      omega
    · by_cases h1 : t < t0
      · simp only [absInsert, if_neg h0, if_pos h1]
        rw [countSegs_cons, countSegs_cons]
        simp only [List.length_cons, List.length_nil]
        omega
      · simp only [absInsert, if_neg h0, if_neg h1]
        rw [countSegs_cons, countSegs_cons, ih]
        omega

theorem countSegs_buildAbs (adds : List (Nat × SVal)) :
    countSegs (buildAbs adds) = adds.length := by
  suffices hgen : ∀ (l : List (Nat × SVal)) (init : List (Nat × List SVal)),
      countSegs (l.foldl (fun s ta => absInsert ta.1 ta.2 s) init) =
        countSegs init + l.length by
    have := hgen adds []
    simpa [buildAbs, countSegs, flattenSegs] using this
  intro l
  induction l with
  | nil => simp
  | cons ta rest ih =>
    intro init
    simp only [List.foldl_cons, ih, countSegs_absInsert, List.length_cons]
    omega

theorem runAdds_rep (adds : List (Nat × SVal)) :
    ∃ h cells, runAdds adds = .ok (h, .ptr 0) ∧
      AgendaRep h (.ptr 0) 0 (buildAbs adds) cells := by
  have har0 : AgendaRep [((.num 0 : SVal), (.nil : SVal))] (.ptr 0) 0 [] [0] :=
    ⟨0, .nil, [], rfl, rfl, SegsRep.nil, rfl, List.nodup_singleton _, by simp⟩
  obtain ⟨h', cells', heq', har'⟩ := foldAdds_rep adds _ (.ptr 0) 0 [] [0] har0
  refine ⟨h', cells', ?_, har'⟩
  simp only [runAdds, make_agenda, cons, List.length_nil, List.nil_append,
    heq']

theorem drainAll_eq (adds : List (Nat × SVal)) :
    drainAll adds = .ok (flattenSegs (buildAbs adds)) := by
  obtain ⟨h, cells, heq, har⟩ := runAdds_rep adds
  have hdrain := drainAgenda_rep (adds.length + 1) (buildAbs adds) h (.ptr 0)
    0 cells har (by rw [countSegs_buildAbs]; omega)
  simp only [drainAll, heq, hdrain]


theorem buildAbs_pairwise (adds : List (Nat × SVal)) :
    ((buildAbs adds).map Prod.fst).Pairwise (· < ·) := by
  suffices hgen : ∀ (l : List (Nat × SVal)) (init : List (Nat × List SVal)),
      (init.map Prod.fst).Pairwise (· < ·) →
      ((l.foldl (fun s ta => absInsert ta.1 ta.2 s) init).map
        Prod.fst).Pairwise (· < ·) from hgen adds [] (by simp)
  intro l
  induction l with
  | nil => intro init hh; simpa using hh
  | cons ta rest ih => intro init hh; exact ih _ (absInsert_pairwise hh)

theorem flatten_fst_mem {segs : List (Nat × List SVal)} {x : Nat × SVal}
    (hx : x ∈ flattenSegs segs) : x.1 ∈ segs.map Prod.fst := by
  simp only [flattenSegs, List.mem_flatMap] at hx
  obtain ⟨tq, htq, hx⟩ := hx
  simp only [List.mem_map] at hx
  obtain ⟨a, ha, rfl⟩ := hx
  exact List.mem_map.mpr ⟨tq, htq, rfl⟩

theorem flatten_cons (t : Nat) (acts : List SVal)
    (rest : List (Nat × List SVal)) :
    flattenSegs ((t, acts) :: rest) =
      acts.map (fun a => (t, a)) ++ flattenSegs rest := by
  simp [flattenSegs]

theorem flatten_sorted :
    ∀ {segs : List (Nat × List SVal)},
      (segs.map Prod.fst).Pairwise (· < ·) →
      ((flattenSegs segs).map Prod.fst).Pairwise (· ≤ ·) := by
  intro segs
  induction segs with
  | nil => intro _; simp [flattenSegs]
  | cons s rest ih =>
    intro hp
    obtain ⟨t, acts⟩ := s
    simp only [List.map_cons, List.pairwise_cons] at hp
    obtain ⟨hlt, hrest⟩ := hp
    rw [flatten_cons, List.map_append, List.pairwise_append]
    refine ⟨?_, ih hrest, ?_⟩
    · rw [List.map_map, List.pairwise_map]
      exact List.pairwise_of_forall (fun _ _ => le_refl t)
    · intro x hx y hy
      have hxt : x = t := by
        simp only [List.map_map, List.mem_map] at hx
        obtain ⟨_, _, rfl⟩ := hx
        rfl
      have hy' : y ∈ (flattenSegs rest).map Prod.fst := hy
      obtain ⟨z, hz, rfl⟩ := List.mem_map.mp hy'
      have := hlt z.1 (flatten_fst_mem hz)
      omega

theorem flatten_absInsert_perm (t : Nat) (a : SVal) :
    ∀ (segs : List (Nat × List SVal)),
      (flattenSegs (absInsert t a segs)).Perm ((t, a) :: flattenSegs segs) := by
  intro segs
  induction segs with
  | nil => simp [absInsert, flattenSegs]
  | cons s rest ih =>
    obtain ⟨t0, q⟩ := s
    by_cases h0 : t0 = t
    · subst h0
      simp only [absInsert, eq_self_iff_true, if_true]
      rw [flatten_cons, flatten_cons, List.map_append]
      simp only [List.map_cons, List.map_nil]
      rw [List.append_assoc]
      exact List.perm_middle
    · by_cases h1 : t < t0
      · simp only [absInsert, if_neg h0, if_pos h1]
        rw [flatten_cons]
        simp
      · simp only [absInsert, if_neg h0, if_neg h1]
        rw [flatten_cons, flatten_cons]
        refine (List.Perm.append_left (q.map (fun a => (t0, a))) ih).trans ?_
        exact List.perm_middle

theorem flatten_buildAbs_perm (adds : List (Nat × SVal)) :
    (flattenSegs (buildAbs adds)).Perm adds := by
  suffices hgen : ∀ (l : List (Nat × SVal)) (init : List (Nat × List SVal)),
      (flattenSegs (l.foldl (fun s ta => absInsert ta.1 ta.2 s) init)).Perm
        (flattenSegs init ++ l) from by
    have := hgen adds []
    simpa [buildAbs, flattenSegs] using this
  intro l
  induction l with
  | nil => intro init; simp
  | cons ta rest ih =>
    intro init
    refine (ih (absInsert ta.1 ta.2 init)).trans ?_
    refine (List.Perm.append_right rest (flatten_absInsert_perm ta.1 ta.2
      init)).trans ?_
    exact List.perm_middle.symm


theorem lookupT_nil_of_not_mem {t : Nat} :
    ∀ {segs : List (Nat × List SVal)}, t ∉ segs.map Prod.fst →
      lookupT t segs = [] := by
  intro segs
  induction segs with
  | nil => intro _; rfl
  | cons s rest ih =>
    intro hmem
    obtain ⟨t0, q⟩ := s
    simp only [List.map_cons, List.mem_cons] at hmem
    have h0 : t0 ≠ t := fun hh => hmem (Or.inl hh.symm)
    simp only [lookupT, if_neg h0]
    exact ih (fun hh => hmem (Or.inr hh))

theorem lookupT_absInsert (t' t : Nat) (a : SVal) :
    ∀ (segs : List (Nat × List SVal)),
      (segs.map Prod.fst).Pairwise (· < ·) →
      lookupT t' (absInsert t a segs) =
        if t = t' then lookupT t' segs ++ [a] else lookupT t' segs := by
  intro segs
  induction segs with
  | nil =>
    intro _
    by_cases ht : t = t'
    · subst ht
      simp [absInsert, lookupT]
    · simp [absInsert, lookupT, ht]
  | cons s rest ih =>
    intro hp
    obtain ⟨t0, q⟩ := s
    simp only [List.map_cons, List.pairwise_cons] at hp
    obtain ⟨hlt, hrest⟩ := hp
    by_cases h0 : t0 = t
    · subst h0
      simp only [absInsert, eq_self_iff_true, if_true]
      by_cases ht' : t0 = t'
      · subst ht'
        simp [lookupT]
      · simp [lookupT, ht']
    · by_cases h1 : t < t0
      · simp only [absInsert, if_neg h0, if_pos h1]
        by_cases ht' : t = t'
        · subst ht'
          have hnotr : t ∉ rest.map Prod.fst := by
            intro hh
            have := hlt t hh
            omega
          simp only [lookupT, eq_self_iff_true, if_true, if_neg h0,
            lookupT_nil_of_not_mem hnotr, List.nil_append]
        · simp only [lookupT, if_neg ht']
      · simp only [absInsert, if_neg h0, if_neg h1]
        by_cases ht0' : t0 = t'
        · subst ht0'
          have htne : ¬ (t = t0) := fun hh => h0 hh.symm
          simp [lookupT, htne]
        · simp only [lookupT, if_neg ht0']
          exact ih hrest

theorem mem_fst_of_lookupT_ne_nil {t : Nat} :
    ∀ {segs : List (Nat × List SVal)}, lookupT t segs ≠ [] →
      t ∈ segs.map Prod.fst := by
  intro segs
  induction segs with
  | nil => intro hh; exact absurd rfl hh
  | cons s rest ih =>
    intro hh
    obtain ⟨t0, q⟩ := s
    by_cases h0 : t0 = t
    · simp [h0]
    · simp only [lookupT, if_neg h0] at hh
      simp only [List.map_cons, List.mem_cons]
      exact Or.inr (ih hh)

theorem lookupT_decomp {t : Nat} :
    ∀ {segs : List (Nat × List SVal)}, t ∈ segs.map Prod.fst →
      ∃ sL sR, segs = sL ++ (t, lookupT t segs) :: sR := by
  intro segs
  induction segs with
  | nil => intro hh; simp at hh
  | cons s rest ih =>
    intro hh
    obtain ⟨t0, q⟩ := s
    by_cases h0 : t0 = t
    · subst h0
      exact ⟨[], rest, by simp [lookupT]⟩
    · have hmem : t ∈ rest.map Prod.fst := by
        simp only [List.map_cons, List.mem_cons] at hh
        rcases hh with rfl | hh
        · exact absurd rfl h0
        · exact hh
      obtain ⟨sL, sR, heq⟩ := ih hmem
      refine ⟨(t0, q) :: sL, sR, ?_⟩
      have hl : lookupT t ((t0, q) :: rest) = lookupT t rest := by
        simp [lookupT, if_neg h0]
      rw [hl, List.cons_append, ← heq]

theorem lookupT_buildAbs (t : Nat) (adds : List (Nat × SVal)) :
    lookupT t (buildAbs adds) =
      (adds.filter (fun x => x.1 == t)).map Prod.snd := by
  suffices hgen : ∀ (l : List (Nat × SVal)) (init : List (Nat × List SVal)),
      (init.map Prod.fst).Pairwise (· < ·) →
      lookupT t (l.foldl (fun s ta => absInsert ta.1 ta.2 s) init) =
        lookupT t init ++ (l.filter (fun x => x.1 == t)).map Prod.snd from by
    have := hgen adds [] (by simp)
    simpa [buildAbs, lookupT] using this
  intro l
  induction l with
  | nil => intro init _; simp
  | cons ta rest ih =>
    intro init hp
    obtain ⟨t1, x⟩ := ta
    simp only [List.foldl_cons]
    rw [ih _ (absInsert_pairwise hp), lookupT_absInsert t t1 x init hp]
    by_cases ht1 : t1 = t
    · subst ht1
      simp [List.filter_cons, List.append_assoc]
    · simp [List.filter_cons, ht1]

theorem flatten_append (l1 l2 : List (Nat × List SVal)) :
    flattenSegs (l1 ++ l2) = flattenSegs l1 ++ flattenSegs l2 := by
  simp [flattenSegs]


/-- Claim C3: for every agenda built by any sequence of add_to_agenda calls
with times t1..tn, draining it by repeated first_agenda_item /
remove_first_agenda_item extractions succeeds and yields every added timed
action exactly once (a permutation of the adds, where each extracted
action is paired with the agenda current time observed right after its
extraction); the observed current times are monotonically non-decreasing,
and each extraction happens at the minimum time among everything still
pending, so first_agenda_item always returns an action of the minimum
remaining time. -/
theorem claim_C3 (adds : List (Nat × SVal)) :
    ∃ out, drainAll adds = .ok out ∧
      out.Perm adds ∧
      ((out.map Prod.fst).Pairwise (· ≤ ·)) ∧
      (∀ (i : Nat) (hi : i < out.length), ∀ x ∈ out.drop i,
        (out.get ⟨i, hi⟩).1 ≤ x.1) := by
  have hsort := flatten_sorted (buildAbs_pairwise adds)
  refine ⟨flattenSegs (buildAbs adds), drainAll_eq adds,
    flatten_buildAbs_perm adds, hsort, ?_⟩
  intro i hi x hx
  rw [List.mem_iff_getElem] at hx
  obtain ⟨k, hk, hkeq⟩ := hx
  rw [List.getElem_drop] at hkeq
  have hik : i + k < (flattenSegs (buildAbs adds)).length := by
    rw [List.length_drop] at hk
    omega
  have hx1 : x.1 = ((flattenSegs (buildAbs adds)).get ⟨i + k, hik⟩).1 := by
    rw [← hkeq]
    simp [List.get_eq_getElem]
  rw [hx1]
  rcases Nat.eq_zero_or_pos k with rfl | hkpos
  · simp
  · have hp := List.pairwise_iff_get.mp hsort
      ⟨i, by simpa using hi⟩ ⟨i + k, by simpa using hik⟩ (by simp; omega)
    simpa [List.get_eq_getElem, List.getElem_map] using hp

/-- Claim C4: two actions added to the same agenda for the identical time
are extracted, across the propagate-style drain, in the order they were
added: whatever surrounds them, the drained sequence splits around the
first-added action and then the second. -/
theorem claim_C4 (l1 l2 l3 : List (Nat × SVal)) (t : Nat) (a b : SVal) :
    ∃ out m1 m2 m3,
      drainAll (l1 ++ (t, a) :: (l2 ++ (t, b) :: l3)) = .ok out ∧
      out = m1 ++ (t, a) :: (m2 ++ (t, b) :: m3) := by
  have hlk : lookupT t (buildAbs (l1 ++ (t, a) :: (l2 ++ (t, b) :: l3))) =
      (l1.filter (fun x => x.1 == t)).map Prod.snd ++
        a :: ((l2.filter (fun x => x.1 == t)).map Prod.snd ++
          b :: (l3.filter (fun x => x.1 == t)).map Prod.snd) := by
    rw [lookupT_buildAbs]
    simp [List.filter_append, List.filter_cons]
  have hmem : t ∈ (buildAbs (l1 ++ (t, a) :: (l2 ++ (t, b) :: l3))).map
      Prod.fst := by
    apply mem_fst_of_lookupT_ne_nil
    rw [hlk]
    simp
  obtain ⟨sL, sR, hdecomp⟩ := lookupT_decomp hmem
  refine ⟨flattenSegs (buildAbs (l1 ++ (t, a) :: (l2 ++ (t, b) :: l3))),
    flattenSegs sL ++ ((l1.filter (fun x => x.1 == t)).map Prod.snd).map
      (fun z => (t, z)),
    ((l2.filter (fun x => x.1 == t)).map Prod.snd).map (fun z => (t, z)),
    ((l3.filter (fun x => x.1 == t)).map Prod.snd).map (fun z => (t, z)) ++
      flattenSegs sR,
    drainAll_eq _, ?_⟩
  rw [hdecomp, flatten_append, flatten_cons, hlk]
  simp [List.map_append, List.append_assoc]


/-- Claim C3 witness: the claim instantiated on a concrete add sequence
with a duplicate time and an out-of-order time. -/
theorem claim_C3_witness :
    ∃ out, drainAll [(5, .str "x"), (3, .str "y"), (5, .str "z")] = .ok out ∧
      out.Perm [(5, .str "x"), (3, .str "y"), (5, .str "z")] ∧
      ((out.map Prod.fst).Pairwise (· ≤ ·)) ∧
      (∀ (i : Nat) (hi : i < out.length), ∀ x ∈ out.drop i,
        (out.get ⟨i, hi⟩).1 ≤ x.1) :=
  claim_C3 [(5, .str "x"), (3, .str "y"), (5, .str "z")]

/-- Claim C4 witness: the claim instantiated on two same-time actions with
surrounding adds. -/
theorem claim_C4_witness :
    ∃ out m1 m2 m3,
      drainAll ([(7, .str "w")] ++ (3, .str "a") :: ([(1, .str "v")] ++
        (3, .str "b") :: [])) = .ok out ∧
      out = m1 ++ (3, .str "a") :: (m2 ++ (3, .str "b") :: m3) :=
  claim_C4 [(7, .str "w")] [(1, .str "v")] [] 3 (.str "a") (.str "b")


theorem absInsert_head_ge {t t' : Nat} {x : SVal} {q : List SVal}
    {rest : List (Nat × List SVal)} (hge : t ≤ t') (hq : q ≠ []) :
    ∃ q' rest', absInsert t' x ((t, q) :: rest) = (t, q') :: rest' ∧
      q'.head? = q.head? ∧ q' ≠ [] := by
  by_cases h0 : t = t'
  · subst h0
    refine ⟨q ++ [x], rest, by simp [absInsert], ?_, by simp⟩
    cases q with
    | nil => exact absurd rfl hq
    | cons z zs => simp
  · have h1 : ¬ t' < t := by omega
    exact ⟨q, absInsert t' x rest, by simp [absInsert, h0, h1], rfl, hq⟩

theorem agendaRep_current_time {h : Heap} {agv : SVal} {ct : Nat}
    {segs : List (Nat × List SVal)} {cells : List Nat}
    (har : AgendaRep h agv ct segs cells) :
    current_time h agv = .ok (.num ct) := by
  obtain ⟨ap, sv, scells, rfl, hgeta, _, _, _, _⟩ := har
  simp [current_time, car, hgeta]

theorem agendaRep_head_ne {h : Heap} {agv : SVal} {ct t : Nat}
    {q : List SVal} {rest : List (Nat × List SVal)} {cells : List Nat}
    (har : AgendaRep h agv ct ((t, q) :: rest) cells) : q ≠ [] := by
  obtain ⟨ap, sv, scells, rfl, hgeta, hsegs, _, _, _⟩ := har
  cases hsegs with
  | cons hget hseg hrest =>
    obtain ⟨sp, qv, qcells, rfl, hgets, hq, rfl, hne⟩ := hseg
    exact hne

theorem after_delay_preserves {st : Sim} {agv : SVal} {t : Nat}
    {q : List SVal} {rest : List (Nat × List SVal)} {cells : List Nat}
    (hag : st.agenda = some agv)
    (har : AgendaRep st.heap agv t ((t, q) :: rest) cells)
    (delay : Nat) (action : Action) :
    (after_delay_run st delay action).1.agenda = some agv ∧
    ∃ q' rest' cells',
      AgendaRep (after_delay_run st delay action).1.heap agv t
        ((t, q') :: rest') cells' ∧ q'.head? = q.head? ∧ q' ≠ [] := by
  have hct := agendaRep_current_time har
  have hqne := agendaRep_head_ne har
  obtain ⟨h', cells', heq, har', _, _, _⟩ :=
    add_to_agenda_rep har (delay + t) (.act action)
  obtain ⟨q', rest', habs, hhead, hq'ne⟩ :=
    @absInsert_head_ge t (delay + t) (.act action) q rest (by omega) hqne
  rw [habs] at har'
  simp only [after_delay_run, the_agenda, hag, hct, asNum, heq]
  exact ⟨trivial, q', rest', cells', har', hhead, hq'ne⟩


theorem exec_preserves_head :
    ∀ (fuel : Nat) (st : Sim) (task : Task) (agv : SVal) (t : Nat)
      (q : List SVal) (rest : List (Nat × List SVal)) (cells : List Nat),
      st.agenda = some agv →
      AgendaRep st.heap agv t ((t, q) :: rest) cells →
      (exec fuel st task).1.agenda = some agv ∧
      ∃ q' rest' cells',
        AgendaRep (exec fuel st task).1.heap agv t ((t, q') :: rest') cells' ∧
        q'.head? = q.head? := by
  intro fuel
  induction fuel with
  | zero =>
    intro st task agv t q rest cells hag har
    exact ⟨hag, q, rest, cells, har, rfl⟩
  | succ fuel ih =>
    intro st task agv t q rest cells hag har
    cases task with
    | run a =>
      cases a with
      | probeAct name w =>
        have hct := agendaRep_current_time har
        simp only [exec, display, the_agenda, hag, hct, asNum, newline]
        exact ⟨trivial, q, rest, cells, har, rfl⟩
      | invertInput input output =>
        cases hln : logical_not (get_signal (wireAt st input)) with
        | error e =>
          simp only [exec, hln]
          exact ⟨hag, q, rest, cells, har, rfl⟩
        | ok nv =>
          simp only [exec, hln]
          obtain ⟨hag1, q', r', c', hr, hh, _⟩ :=
            after_delay_preserves hag har (inverter_delay ()) (.setSig output nv)
          exact ⟨hag1, q', r', c', hr, hh⟩
      | andAction a1 a2 output =>
        simp only [exec]
        obtain ⟨hag1, q', r', c', hr, hh, _⟩ :=
          after_delay_preserves hag har (and_gate_delay ())
            (.setSig output (logical_and (get_signal (wireAt st a1))
              (get_signal (wireAt st a2))))
        exact ⟨hag1, q', r', c', hr, hh⟩
      | orAction a1 a2 output =>
        simp only [exec]
        obtain ⟨hag1, q', r', c', hr, hh, _⟩ :=
          after_delay_preserves hag har (or_gate_delay ())
            (.setSig output (logical_or (get_signal (wireAt st a1))
              (get_signal (wireAt st a2))))
        exact ⟨hag1, q', r', c', hr, hh⟩
      | setSig w v =>
        simp only [exec]
        by_cases hchg : (wireAt st w).signal_value ≠ v
        · rw [if_pos hchg]
          exact ih _ _ agv t q rest cells hag har
        · rw [if_neg hchg]
          exact ⟨hag, q, rest, cells, har, rfl⟩
    | each procedures =>
      simp only [exec]
      by_cases hnull : null procedures
      · rw [if_pos hnull]
        exact ⟨hag, q, rest, cells, har, rfl⟩
      · rw [if_neg hnull]
        cases hcar : car st.heap procedures with
        | error e =>
          simp only [hcar]
          exact ⟨hag, q, rest, cells, har, rfl⟩
        | ok pv =>
          simp only [hcar]
          cases pv with
          | nil => exact ⟨hag, q, rest, cells, har, rfl⟩
          | num n => exact ⟨hag, q, rest, cells, har, rfl⟩
          | str s => exact ⟨hag, q, rest, cells, har, rfl⟩
          | ptr p => exact ⟨hag, q, rest, cells, har, rfl⟩
          | act a =>
            suffices hgoal :
                (match exec fuel st (Task.run a) with
                  | (st1, Except.ok _) =>
                    match cdr st1.heap procedures with
                    | Except.error e => (st1, Except.error e)
                    | Except.ok restv => exec fuel st1 (Task.each restv)
                  | (st1, Except.error e) => (st1, Except.error e)).1.agenda = some agv ∧
                ∃ q' rest' cells',
                  AgendaRep (match exec fuel st (Task.run a) with
                    | (st1, Except.ok _) =>
                      match cdr st1.heap procedures with
                      | Except.error e => (st1, Except.error e)
                      | Except.ok restv => exec fuel st1 (Task.each restv)
                    | (st1, Except.error e) => (st1, Except.error e)).1.heap
                    agv t ((t, q') :: rest') cells' ∧
                  q'.head? = q.head? by
              exact hgoal
            generalize hres : exec fuel st (Task.run a) = res
            obtain ⟨st1, r1⟩ := res
            have hpre := ih st (.run a) agv t q rest cells hag har
            rw [hres] at hpre
            obtain ⟨hag1, q1, r1', c1, har1, hh1⟩ := hpre
            cases r1 with
            | error e => exact ⟨hag1, q1, r1', c1, har1, hh1⟩
            | ok u =>
              show (match cdr st1.heap procedures with
                  | Except.error e => (st1, Except.error e)
                  | Except.ok restv => exec fuel st1 (Task.each restv)).1.agenda = some agv ∧
                ∃ q' rest' cells',
                  AgendaRep (match cdr st1.heap procedures with
                    | Except.error e => (st1, Except.error e)
                    | Except.ok restv => exec fuel st1 (Task.each restv)).1.heap
                    agv t ((t, q') :: rest') cells' ∧
                  q'.head? = q.head?
              cases hcdr : cdr st1.heap procedures with
              | error e => exact ⟨hag1, q1, r1', c1, har1, hh1⟩
              | ok restv =>
                obtain ⟨hag2, q2, r2', c2, har2, hh2⟩ :=
                  ih st1 (.each restv) agv t q1 r1' c1 hag1 har1
                exact ⟨hag2, q2, r2', c2, har2, hh2.trans hh1⟩

theorem agendaRep_empty_false {h : Heap} {agv : SVal} {ct t : Nat}
    {q : List SVal} {rest : List (Nat × List SVal)} {cells : List Nat}
    (har : AgendaRep h agv ct ((t, q) :: rest) cells) :
    empty_agenda_p h agv = .ok false := by
  obtain ⟨ap, sv, scells, rfl, hgeta, hsegs, _, _, _⟩ := har
  cases hsegs with
  | cons hget hseg hrest =>
    simp [empty_agenda_p, segments, cdr, hgeta, null]

theorem propagate_loop_first_error {fuel : Nat} {st : Sim} {agenda : SVal}
    {h1 : Heap} {act : Action} {st2 : Sim} {e : SErr}
    (hempty : empty_agenda_p st.heap agenda = .ok false)
    (hfai : first_agenda_item st.heap agenda = .ok (h1, .act act))
    (hrun : exec fuel { st with heap := h1 } (Task.run act) = (st2, .error e)) :
    propagate_loop (fuel + 1) st agenda = (st2, .error e) := by
  simp only [propagate_loop, hempty, hfai, hrun]

/-- A concrete one-event state: the agenda holds a single segment at time 0
whose only pending action is an inverter observer of wire 0, and wire 0
carries the invalid signal 2, so running the action raises InvalidSignal. -/
def c10Sim : Sim :=
  { heap := [(.num 0, .ptr 1), (.ptr 2, .nil), (.num 0, .ptr 3),
      (.ptr 4, .ptr 4), (.act (.invertInput 0 0), .nil)],
    wires := [{ signal_value := 2, action_procedures := .nil }],
    agenda := some (.ptr 0), out := "" }

/-- C10: propagate executes the first agenda action before removing it.
On every represented non-empty agenda whose first pending item is the
action act, first_agenda_item succeeds and hands back act, and whenever
executing act raises an error, the propagate loop answers exactly that
error in the state the action left behind: there the agenda is still
represented with act at the front of its first segment (no removal
happened), while current_time already answers that segment time, advanced
by first_agenda_item. -/
theorem claim_C10 (fuel : Nat) (st : Sim) (agv : SVal) (ct t : Nat)
    (act : Action) (acts : List SVal) (rest : List (Nat × List SVal))
    (cells : List Nat)
    (hag : st.agenda = some agv)
    (har : AgendaRep st.heap agv ct ((t, .act act :: acts) :: rest) cells) :
    ∃ h1, first_agenda_item st.heap agv = .ok (h1, .act act) ∧
      ∀ st2 e,
        exec fuel { st with heap := h1 } (Task.run act) = (st2, .error e) →
        propagate_loop (fuel + 1) st agv = (st2, .error e) ∧
        st2.agenda = some agv ∧
        ∃ acts' rest' cells',
          AgendaRep st2.heap agv t ((t, .act act :: acts') :: rest') cells' ∧
          current_time st2.heap agv = .ok (.num t) := by
  obtain ⟨h1, a0, acts0, heq, hfai, har1, hlen, hframe⟩ :=
    first_agenda_item_rep har
  obtain ⟨rfl, rfl⟩ : SVal.act act = a0 ∧ acts = acts0 := by
    injection heq with h1e h2e
    exact ⟨h1e, h2e⟩
  refine ⟨h1, hfai, ?_⟩
  intro st2 e hrun
  have hag1 : (({ st with heap := h1 } : Sim)).agenda = some agv := hag
  have hpre := exec_preserves_head fuel { st with heap := h1 } (Task.run act)
    agv t (SVal.act act :: acts) rest cells hag1 har1
  rw [hrun] at hpre
  obtain ⟨hag2, q1, rest1, cells1, har2, hh⟩ := hpre
  have hq1ne : q1 ≠ [] := agendaRep_head_ne har2
  obtain ⟨a1, q1tl, rfl⟩ : ∃ a1 tl, q1 = a1 :: tl := by
    cases q1 with
    | nil => exact absurd rfl hq1ne
    | cons a1 tl => exact ⟨a1, tl, rfl⟩
  have ha1 : a1 = SVal.act act := by simpa using hh
  subst ha1
  have hempty : empty_agenda_p st.heap agv = .ok false :=
    agendaRep_empty_false har
  exact ⟨propagate_loop_first_error hempty hfai hrun, hag2,
    q1tl, rest1, cells1, har2, agendaRep_current_time har2⟩

/-- Claim C10 witness: on the one-event state the propagate loop surfaces
InvalidSignal, leaving the inverter action at the front of the time-0
segment with current_time advanced to 0. -/
theorem claim_C10_witness :
    propagate_loop 2 c10Sim (SVal.ptr 0) =
      (c10Sim, .error (.schemeError "Invalid signal" [SVal.num 2])) ∧
    c10Sim.agenda = some (SVal.ptr 0) ∧
    ∃ acts' rest' cells',
      AgendaRep c10Sim.heap (SVal.ptr 0) 0
        ((0, SVal.act (.invertInput 0 0) :: acts') :: rest') cells' ∧
      current_time c10Sim.heap (SVal.ptr 0) = .ok (.num 0) := by
  have harep : AgendaRep c10Sim.heap (SVal.ptr 0) 0
      ((0, [SVal.act (.invertInput 0 0)]) :: []) [0, 1, 2, 3, 4] := by
    refine ⟨0, .ptr 1, [1, 2, 3, 4], rfl, by decide, ?_, rfl, by decide,
      by simp⟩
    refine @SegsRep.cons _ 1 (.ptr 2) .nil 0 [SVal.act (.invertInput 0 0)]
      [] [2, 3, 4] [] (by decide) ?_ SegsRep.nil
    refine ⟨2, .ptr 3, [3, 4], rfl, by decide, ?_, rfl, by simp⟩
    refine ⟨3, .ptr 4, .ptr 4, [4], rfl, by decide, ?_, rfl, ?_⟩
    · exact Chain.cons (by decide) Chain.nil
    · intro _
      exact ⟨4, rfl, rfl⟩
  obtain ⟨h1, hfai, hall⟩ := claim_C10 1 c10Sim (SVal.ptr 0) 0 0
    (.invertInput 0 0) [] [] [0, 1, 2, 3, 4] rfl harep
  have hcomp : first_agenda_item c10Sim.heap (SVal.ptr 0) =
      .ok (c10Sim.heap, .act (.invertInput 0 0)) := rfl
  have hinj := hcomp.symm.trans hfai
  have hh1 : c10Sim.heap = h1 := by
    injection hinj with hp
    exact congrArg Prod.fst hp
  subst hh1
  have hrun : exec 1 { c10Sim with heap := c10Sim.heap }
      (Task.run (.invertInput 0 0)) =
      (c10Sim, .error (.schemeError "Invalid signal" [SVal.num 2])) := rfl
  obtain ⟨hprop, hag2, acts', rest', cells', har2, hct2⟩ :=
    hall c10Sim (.schemeError "Invalid signal" [SVal.num 2]) hrun
  exact ⟨hprop, rfl, acts', rest', cells', har2, hct2⟩

end Sicpy